import Mathlib

/-!
# Verification of the argos-translate translation core

This file is a shallow embedding, in Lean 4, of the translation graph and
composition engine of argos-translate (`argostranslate/translate.py`,
`argostranslate/chunk.py`, `argostranslate/tags.py`, together with the parts
of `argostranslate/sbd.py` and `argostranslate/fewshot.py` they use), and a
development of theorems about that embedding.

Modelling conventions, used throughout:

* Python `str` values are modelled as `List Char` (`Str` below).  All string
  operations of the source (`split`, `join`, `lstrip`, `find`, slices) are
  re-implemented structurally on `List Char` so that every definition is
  executable and kernel-reducible.
* Python `float` scores are modelled as exact rationals (`ℚ`).  Floating
  point rounding is not modelled; all comparisons are exact.
* External capabilities (the CTranslate2 inference pipeline, remote HTTP
  APIs, the few-shot language model) are passed in as function parameters
  ("oracles"), following the spec's treatment of them as opaque capability
  objects.
* Loops whose bound is not structural are implemented with an explicit fuel
  argument, and fuel sufficiency is proved where a theorem needs it.
-/

set_option linter.unusedVariables false

namespace ArgosTranslate

/-- Python `str`, modelled as a list of characters. -/
abbrev Str := List Char

/-- `translate.py::Hypothesis`: a scored candidate output string.
`value` is the hypothetical translation, `score` its quality score. -/
structure Hyp where
  value : Str
  score : ℚ
deriving DecidableEq, Repr

/-! ## Basic string operations used by `translate.py`

`split_into_paragraphs` is `input_text.split("\n")`,
`combine_paragraphs` is `"\n".join(paragraphs)`,
and per-rank reassembly ends with `.lstrip("\n")`. -/

/-- Python `s.split("\n")`: split on every newline; `"".split("\n") == [""]`. -/
def splitNL : Str → List Str
  | [] => [[]]
  | c :: rest =>
    if c = '\n' then [] :: splitNL rest
    else
      match splitNL rest with
      | [] => [[c]]
      | h :: t => (c :: h) :: t

/-- Python `"\n".join(l)`. -/
def joinNL : List Str → Str
  | [] => []
  | [x] => x
  | x :: xs => x ++ '\n' :: joinNL xs

/-- Python `s.lstrip("\n")`: remove ALL leading newline characters. -/
def lstripNL (s : Str) : Str := s.dropWhile (fun c => c = '\n')

/-- `ITranslation.split_into_paragraphs` (translate.py line 89). -/
def split_into_paragraphs (input_text : Str) : List Str := splitNL input_text

/-- `ITranslation.combine_paragraphs` (translate.py line 102). -/
def combine_paragraphs (paragraphs : List Str) : Str := joinNL paragraphs

/-! ## The simple translation variants

A translation capability is modelled extensionally as a function
`Str → Nat → List Hyp` taking the input text and `num_hypotheses`. -/

/-- A translation capability: input text and `num_hypotheses` to ranked
hypotheses.  This is the extensional view of `ITranslation.hypotheses`. -/
abbrev HypFn := Str → Nat → List Hyp

/-- `ITranslation.translate`: `hypotheses(input_text, 1)[0].value`
(translate.py line 63).  Indexing an empty list is modelled by `Option`. -/
def translateOf (f : HypFn) (input_text : Str) : Option Str :=
  ((f input_text 1).get? 0).map Hyp.value

/-- `IdentityTranslation.hypotheses` (translate.py lines 207-208):
`[Hypothesis(input_text, 0) for i in range(num_hypotheses)]`. -/
def identityHypotheses (input_text : Str) (num_hypotheses : Nat) : List Hyp :=
  (List.range num_hypotheses).map (fun _ => Hyp.mk input_text 0)

/-- `RemoteTranslation.hypotheses` (translate.py lines 329-335), with the
remote API `api.translate(q, from_code, to_code)` passed as an oracle:
`[Hypothesis(result, 0)] * num_hypotheses`. -/
def remoteHypotheses (api : Str → Str → Str → Str) (fromCode toCode : Str)
    (input_text : Str) (num_hypotheses : Nat) : List Hyp :=
  List.replicate num_hypotheses (Hyp.mk (api input_text fromCode toCode) 0)

/-- Stable insertion of a hypothesis into a score-descending list: the new
element goes after all existing elements with a score `≥` its own.  This is
the unique stable descending order, hence it agrees with Python's stable
`list.sort(reverse=True)` under `Hypothesis.__lt__` (compare by `score`). -/
def insertDesc (x : Hyp) : List Hyp → List Hyp
  | [] => [x]
  | y :: ys => if x.score ≤ y.score then y :: insertDesc x ys else x :: y :: ys

/-- Python `to_return.sort(reverse=True)` on hypotheses (stable, descending
by score). -/
def sortHypDesc (l : List Hyp) : List Hyp :=
  l.foldr (fun x acc => insertDesc x acc) []

/-- `CompositeTranslation.hypotheses` (translate.py lines 237-252), with the
two chained translations passed extensionally.  The accumulating loop
structure of the source (append into `to_return`, then sort in place, then
slice `[0:num_hypotheses]`) is kept. -/
def compositeHypotheses (t1 t2 : HypFn) (input_text : Str)
    (num_hypotheses : Nat) : List Hyp :=
  let t1_hypotheses := t1 input_text num_hypotheses
  let to_return := t1_hypotheses.foldl
    (fun acc t1_hypothesis =>
      (t2 t1_hypothesis.value num_hypotheses).foldl
        (fun acc2 t2_hypothesis =>
          acc2 ++ [Hyp.mk t2_hypothesis.value
                    (t1_hypothesis.score + t2_hypothesis.score)])
        acc)
    []
  (sortHypDesc to_return).take num_hypotheses

/-- The computation described by the spec for `CompositeTranslation`
(§4.2 steps 1-5): cross product of the two hypothesis lists, additive
scores, sort best-first, truncate to `n`. -/
def specCompositeHypotheses (t1 t2 : HypFn) (input_text : Str)
    (num_hypotheses : Nat) : List Hyp :=
  let pairs :=
    (t1 input_text num_hypotheses).flatMap (fun h1 =>
      (t2 h1.value num_hypotheses).map (fun h2 =>
        Hyp.mk h2.value (h1.score + h2.score)))
  (sortHypDesc pairs).take num_hypotheses

/-! ### Length lemmas for the simple variants -/

theorem insertDesc_length (x : Hyp) (l : List Hyp) :
    (insertDesc x l).length = l.length + 1 := by
  induction l with
  | nil => rfl
  | cons y ys ih =>
    simp only [insertDesc]
    split <;> simp [ih]

theorem sortHypDesc_length (l : List Hyp) :
    (sortHypDesc l).length = l.length := by
  induction l with
  | nil => rfl
  | cons x xs ih =>
    simp only [sortHypDesc, List.foldr] at *
    rw [insertDesc_length, ih, List.length_cons]

/-- Appending singletons in a left fold is `map`. -/
theorem foldl_append_singleton {α β : Type} (g : α → β) (l : List α)
    (acc : List β) :
    l.foldl (fun acc2 x => acc2 ++ [g x]) acc = acc ++ l.map g := by
  induction l generalizing acc with
  | nil => simp
  | cons x xs ih => simp [List.foldl, ih]

/-- The nested accumulating loop of `CompositeTranslation.hypotheses` builds
exactly the cross-product list. -/
theorem composite_foldl_eq_flatMap {α : Type} (f2 : α → List α) (g : α → α → Hyp)
    (l : List α) (init : List Hyp) :
    l.foldl (fun acc h1 => (f2 h1).foldl
      (fun acc2 h2 => acc2 ++ [g h1 h2]) acc) init
      = init ++ l.flatMap (fun h1 => (f2 h1).map (g h1)) := by
  induction l generalizing init with
  | nil => simp
  | cons x xs ih =>
    simp only [List.foldl, List.flatMap_cons]
    rw [foldl_append_singleton, ih, List.append_assoc]

theorem compositeHypotheses_eq_spec (t1 t2 : HypFn) (input_text : Str)
    (num_hypotheses : Nat) :
    compositeHypotheses t1 t2 input_text num_hypotheses
      = specCompositeHypotheses t1 t2 input_text num_hypotheses := by
  unfold compositeHypotheses specCompositeHypotheses
  dsimp only
  rw [composite_foldl_eq_flatMap (fun h1 => t2 h1.value num_hypotheses)
    (fun h1 h2 => Hyp.mk h2.value (h1.score + h2.score))]
  simp

/-! ## Per-rank reassembly over paragraphs

Both `PackageTranslation.hypotheses` (translate.py lines 179-190) and
`CachedTranslation.hypotheses` (lines 303-315) rebuild the returned
hypotheses with the same loop: start from `Hypothesis("", 0)`, fold each
paragraph's rank-`i` hypothesis in with `combine_paragraphs` and score
addition, then `lstrip("\n")` the value.  Python's `translated_paragraph[i]`
raises `IndexError` on a short list; that partiality is modelled by a
`Hypothesis("", 0)` default (the theorems that depend on the indexed value
assume the length contract, under which the default is never used). -/

/-- One paragraph folded into the rank-`i` accumulator:
`Hypothesis(combine_paragraphs([h.value, tp[i].value]), h.score + tp[i].score)`. -/
def rankStep (i : Nat) (h : Hyp) (tp : List Hyp) : Hyp :=
  Hyp.mk (combine_paragraphs [h.value, (tp.getD i (Hyp.mk [] 0)).value])
    (h.score + (tp.getD i (Hyp.mk [] 0)).score)

/-- The per-rank reassembly loop shared by `PackageTranslation.hypotheses`
and `CachedTranslation.hypotheses`. -/
def reassembleParagraphHyps (translated_paragraphs : List (List Hyp))
    (num_hypotheses : Nat) : List Hyp :=
  (List.range num_hypotheses).map (fun i =>
    let folded := translated_paragraphs.foldl (rankStep i) (Hyp.mk [] 0)
    Hyp.mk (lstripNL folded.value) folded.score)

/-- `PackageTranslation.hypotheses` (translate.py lines 164-190).
`apply_packaged_translation` (the sentence-splitting + tokenizing +
CTranslate2 batch pipeline, lines 396-490) is external to the core and is
passed as an oracle mapping a paragraph and a hypothesis count to scored
hypotheses. -/
def packageTranslationHypotheses (applyPackaged : Str → Nat → List Hyp)
    (input_text : Str) (num_hypotheses : Nat) : List Hyp :=
  let paragraphs := split_into_paragraphs input_text
  let translated_paragraphs :=
    paragraphs.map (fun p => applyPackaged p num_hypotheses)
  reassembleParagraphHyps translated_paragraphs num_hypotheses

/-! ## `CachedTranslation` (translate.py lines 255-315)

The cache is a Python `dict` from a paragraph's literal text to its
previously computed hypothesis list; modelled as an insertion-ordered
association list with overwrite-on-duplicate-key. -/

/-- The `CachedTranslation.cache` dict. -/
abbrev Cache := List (Str × List Hyp)

/-- Python `cache.get(k)`. -/
def cacheLookup (cache : Cache) (k : Str) : Option (List Hyp) :=
  (cache.find? (fun kv => kv.1 = k)).map (·.2)

/-- Python `cache[k] = v`: overwrite in place if present, else append. -/
def cacheInsert (cache : Cache) (k : Str) (v : List Hyp) : Cache :=
  if cache.any (fun kv => kv.1 = k) then
    cache.map (fun kv => if kv.1 = k then (k, v) else kv)
  else cache ++ [(k, v)]

/-- The condition under which `CachedTranslation.hypotheses` calls the
underlying translation for a paragraph (translate.py lines 289-295): the
stored entry is absent, or its length differs from `num_hypotheses`. -/
def cacheMiss (cache : Cache) (num_hypotheses : Nat) (paragraph : Str) : Bool :=
  match cacheLookup cache paragraph with
  | none => true
  | some tp => tp.length ≠ num_hypotheses

/-- The hypothesis list used for one paragraph: the stored entry when it is
present with the right length, a fresh call to the underlying translation
otherwise (translate.py lines 289-298).  All lookups go to the cache from
the previous call (`self.cache`), never to the cache being rebuilt. -/
def cachedTranslatedParagraph (underlying : HypFn) (cache : Cache)
    (num_hypotheses : Nat) (paragraph : Str) : List Hyp :=
  match cacheLookup cache paragraph with
  | some tp => if tp.length = num_hypotheses then tp
               else underlying paragraph num_hypotheses
  | none => underlying paragraph num_hypotheses

/-- Result of one `CachedTranslation.hypotheses` call: the returned
hypotheses, the rebuilt cache (`self.cache` after line 301), and — for
stating the reuse contract — the list of paragraphs on which
`underlying.hypotheses` was invoked, in call order. -/
structure CachedResult where
  hyps : List Hyp
  newCache : Cache
  calls : List Str
deriving Repr

/-- `CachedTranslation.hypotheses` (translate.py lines 284-315). -/
def cachedHypotheses (underlying : HypFn) (cache : Cache) (input_text : Str)
    (num_hypotheses : Nat) : CachedResult :=
  let paragraphs := split_into_paragraphs input_text
  let st := paragraphs.foldl
    (fun (st : Cache × List (List Hyp) × List Str) paragraph =>
      let tp := cachedTranslatedParagraph underlying cache num_hypotheses
        paragraph
      (cacheInsert st.1 paragraph tp,
       st.2.1 ++ [tp],
       st.2.2 ++ if cacheMiss cache num_hypotheses paragraph then [paragraph]
                 else []))
    ([], [], [])
  CachedResult.mk (reassembleParagraphHyps st.2.1 num_hypotheses) st.1 st.2.2

/-! ### The loop components of `cachedHypotheses`, in closed form -/

theorem cachedHypotheses_loop (underlying : HypFn) (cache : Cache)
    (num_hypotheses : Nat) (paragraphs : List Str)
    (c0 : Cache) (t0 : List (List Hyp)) (s0 : List Str) :
    paragraphs.foldl
      (fun (st : Cache × List (List Hyp) × List Str) paragraph =>
        let tp := cachedTranslatedParagraph underlying cache num_hypotheses
          paragraph
        (cacheInsert st.1 paragraph tp,
         st.2.1 ++ [tp],
         st.2.2 ++ if cacheMiss cache num_hypotheses paragraph then [paragraph]
                   else []))
      (c0, t0, s0)
      = (paragraphs.foldl (fun nc p => cacheInsert nc p
            (cachedTranslatedParagraph underlying cache num_hypotheses p)) c0,
         t0 ++ paragraphs.map
           (cachedTranslatedParagraph underlying cache num_hypotheses),
         s0 ++ paragraphs.filter (cacheMiss cache num_hypotheses)) := by
  induction paragraphs generalizing c0 t0 s0 with
  | nil => simp
  | cons p ps ih =>
    simp only [List.foldl, List.map, List.filter]
    rw [ih]
    cases h : cacheMiss cache num_hypotheses p <;> simp

theorem cacheLookup_insert_isSome (c : Cache) (k k' : Str) (v : List Hyp) :
    (cacheLookup (cacheInsert c k v) k').isSome
      ↔ k' = k ∨ (cacheLookup c k').isSome := by
  unfold cacheInsert cacheLookup
  split
  · rename_i hany
    constructor
    · intro h
      by_cases hk : k' = k
      · exact Or.inl hk
      · refine Or.inr ?_
        rw [Option.isSome_map'] at h ⊢
        rw [List.find?_isSome] at h ⊢
        obtain ⟨kv, hmem, hp⟩ := h
        rw [List.mem_map] at hmem
        obtain ⟨kv0, hkv0, heq⟩ := hmem
        by_cases h0 : kv0.1 = k
        · simp only [decide_eq_true_eq] at hp
          rw [if_pos h0] at heq
          subst heq
          simp only at hp
          exact absurd hp.symm hk
        · rw [if_neg h0] at heq
          subst heq
          exact ⟨kv0, hkv0, hp⟩
    · intro h
      rw [Option.isSome_map', List.find?_isSome]
      rcases h with h | h
      · subst h
        rw [List.any_eq_true] at hany
        obtain ⟨kv0, hkv0, h0⟩ := hany
        simp only [decide_eq_true_eq] at h0
        exact ⟨(k', v), List.mem_map.mpr ⟨kv0, hkv0, by rw [if_pos h0]⟩,
          by simp⟩
      · rw [Option.isSome_map', List.find?_isSome] at h
        obtain ⟨kv0, hkv0, hp⟩ := h
        simp only [decide_eq_true_eq] at hp
        by_cases h0 : kv0.1 = k
        · exact ⟨(k, v), List.mem_map.mpr ⟨kv0, hkv0, by rw [if_pos h0]⟩,
            by simp [hp ▸ h0]⟩
        · exact ⟨kv0, List.mem_map.mpr ⟨kv0, hkv0, by rw [if_neg h0]⟩,
            by simp [hp]⟩
  · simp only [Option.isSome_map', List.find?_isSome, List.mem_append,
      List.mem_singleton, decide_eq_true_eq]
    constructor
    · rintro ⟨kv, h | h, hp⟩
      · exact Or.inr ⟨kv, h, hp⟩
      · subst h
        exact Or.inl hp.symm
    · rintro (h | ⟨kv, hm, hp⟩)
      · exact ⟨(k, v), Or.inr rfl, h.symm⟩
      · exact ⟨kv, Or.inl hm, hp⟩

/-- Keys present after folding `cacheInsert` over a list of paragraphs. -/
theorem cacheLookup_foldInsert_isSome (f : Str → List Hyp) (ps : List Str)
    (c0 : Cache) (k : Str) :
    (cacheLookup (ps.foldl (fun nc p => cacheInsert nc p (f p)) c0) k).isSome
      ↔ (cacheLookup c0 k).isSome ∨ k ∈ ps := by
  induction ps generalizing c0 with
  | nil => simp
  | cons p ps ih =>
    simp only [List.foldl, List.mem_cons]
    rw [ih, cacheLookup_insert_isSome]
    tauto

/-- The paragraph-hypothesis lists computed by one
`CachedTranslation.hypotheses` call, in closed form: they depend only on the
previous call's cache, so the sequential loop is a `map`. -/
def cachedParagraphHyps (underlying : HypFn) (cache : Cache)
    (num_hypotheses : Nat) (input_text : Str) : List (List Hyp) :=
  (split_into_paragraphs input_text).map
    (cachedTranslatedParagraph underlying cache num_hypotheses)

theorem cachedHypotheses_eq (underlying : HypFn) (cache : Cache)
    (input_text : Str) (num_hypotheses : Nat) :
    cachedHypotheses underlying cache input_text num_hypotheses
      = CachedResult.mk
          (reassembleParagraphHyps
            (cachedParagraphHyps underlying cache num_hypotheses input_text)
            num_hypotheses)
          ((split_into_paragraphs input_text).foldl
            (fun nc p => cacheInsert nc p
              (cachedTranslatedParagraph underlying cache num_hypotheses p)) [])
          ((split_into_paragraphs input_text).filter
            (cacheMiss cache num_hypotheses)) := by
  unfold cachedHypotheses cachedParagraphHyps
  dsimp only
  rw [cachedHypotheses_loop]
  simp

/-- The per-rank fold in closed form: values are concatenated each behind a
newline, scores are summed. -/
theorem rankFold_eq (i : Nat) (tps : List (List Hyp)) (h0 : Hyp) :
    tps.foldl (rankStep i) h0
      = Hyp.mk
          (h0.value ++ tps.flatMap
            (fun tp => '\n' :: (tp.getD i (Hyp.mk [] 0)).value))
          (h0.score + (tps.map
            (fun tp => (tp.getD i (Hyp.mk [] 0)).score)).sum) := by
  induction tps generalizing h0 with
  | nil => simp
  | cons tp tps ih =>
    simp only [List.foldl, List.flatMap_cons, List.map, List.sum_cons]
    rw [ih]
    simp only [rankStep, combine_paragraphs, joinNL]
    congr 1
    · simp
    · ring

/-- Prefixing every element with a newline and concatenating is, for a
nonempty list, a newline followed by the `"\n"`-join. -/
theorem flatMap_cons_newline (vals : List Str) (h : vals ≠ []) :
    vals.flatMap (fun v => '\n' :: v) = '\n' :: joinNL vals := by
  induction vals with
  | nil => exact absurd rfl h
  | cons v vs ih =>
    cases vs with
    | nil => simp [joinNL]
    | cons w ws =>
      simp only [List.flatMap_cons] at ih ⊢
      rw [ih (by simp)]
      simp [joinNL]

theorem lstripNL_newline_cons (s : Str) : lstripNL ('\n' :: s) = lstripNL s := by
  simp [lstripNL, List.dropWhile]

/-- Each returned rank of the reassembly loop, in closed form: the rank's
per-paragraph values joined behind newlines with ALL leading newlines then
stripped, and the rank's per-paragraph scores summed. -/
theorem reassembleParagraphHyps_get? (tps : List (List Hyp))
    (num_hypotheses i : Nat) (hi : i < num_hypotheses) :
    (reassembleParagraphHyps tps num_hypotheses).get? i
      = some (Hyp.mk
          (lstripNL (joinNL (tps.map
            (fun tp => (tp.getD i (Hyp.mk [] 0)).value))))
          ((tps.map (fun tp => (tp.getD i (Hyp.mk [] 0)).score)).sum)) := by
  unfold reassembleParagraphHyps
  rw [List.get?_eq_getElem?, List.getElem?_map, List.getElem?_range hi]
  simp only [Option.map_some', rankFold_eq]
  have hflat : tps.flatMap (fun tp => '\n' :: (tp.getD i (Hyp.mk [] 0)).value)
      = (tps.map (fun tp => (tp.getD i (Hyp.mk [] 0)).value)).flatMap
          (fun v => '\n' :: v) := by
    induction tps with
    | nil => rfl
    | cons tp tps ih => simp only [List.flatMap_cons, List.map_cons, ih]
  have hjoin : ∀ vals : List Str,
      lstripNL (vals.flatMap (fun v => '\n' :: v)) = lstripNL (joinNL vals) := by
    intro vals
    cases vals with
    | nil => rfl
    | cons v vs => rw [flatMap_cons_newline _ (by simp), lstripNL_newline_cons]
  simp only [Option.some.injEq, Hyp.mk.injEq]
  refine ⟨?_, zero_add _⟩
  show lstripNL (([] : Str) ++ _) = _
  rw [List.nil_append, hflat, hjoin]

/-! ## The difflib similarity ratio

`chunk.py`, `sbd.py` and `tags.py` measure string similarity with
`difflib.SequenceMatcher.ratio()` from the Python standard library:
`2 * M / (len(a) + len(b))` where `M` is the total size of the matching
blocks found by recursively taking the longest matching block (longest
common contiguous run; ties broken by the earliest start in `a`, then the
earliest start in `b`) and recursing on the pieces to its left and right.
The ratio is `1.0` when both strings are empty.  This is modelled exactly
over `ℚ`; difflib's junk/autojunk popularity heuristics (which only engage
for sequences of length ≥ 200) and floating-point rounding are not
modelled. -/

/-- Length of the longest common prefix of two strings. -/
def commonPrefixLen : Str → Str → Nat
  | x :: xs, y :: ys => if x = y then commonPrefixLen xs ys + 1 else 0
  | _, _ => 0

/-- `SequenceMatcher.find_longest_match` over the whole strings: the
`(i, j, k)` with `a[i:i+k] == b[j:j+k]`, `k` maximal, ties resolved to the
smallest `i`, then the smallest `j`. -/
def bestMatch (a b : Str) : Nat × Nat × Nat :=
  (List.range (a.length + 1)).foldl (fun best i =>
    (List.range (b.length + 1)).foldl (fun best j =>
      let k := commonPrefixLen (a.drop i) (b.drop j)
      if k > best.2.2 then (i, j, k) else best) best) (0, 0, 0)

/-- Total matching-block size (`sum(k for _, _, k in get_matching_blocks)`):
take the longest match, recurse left of it and right of it.  The recursion
depth is bounded by the total length, so that is the fuel. -/
def matchesAux : Nat → Str → Str → Nat
  | 0, _, _ => 0
  | fuel + 1, a, b =>
    let m := bestMatch a b
    if m.2.2 = 0 then 0
    else matchesAux fuel (a.take m.1) (b.take m.2.1) + m.2.2
         + matchesAux fuel (a.drop (m.1 + m.2.2)) (b.drop (m.2.1 + m.2.2))

def matchesTotal (a b : Str) : Nat := matchesAux (a.length + b.length + 1) a b

/-- `SequenceMatcher.ratio()`: `2M / (len(a) + len(b))`, and `1.0` for two
empty sequences. -/
def ratioL (a b : Str) : ℚ :=
  if a.length + b.length = 0 then 1
  else 2 * (matchesTotal a b : ℚ) / ((a.length : ℚ) + (b.length : ℚ))

theorem foldl_fixed {α β : Type} (f : α → β → α) (l : List β) (init : α)
    (h : ∀ acc x, x ∈ l → f acc x = acc) : l.foldl f init = init := by
  induction l generalizing init with
  | nil => rfl
  | cons x xs ih =>
    rw [List.foldl_cons, h init x (List.mem_cons_self x xs)]
    exact ih init (fun acc y hy => h acc y (List.mem_cons_of_mem x hy))

theorem commonPrefixLen_nil (b : Str) : commonPrefixLen [] b = 0 := by
  cases b <;> rfl

theorem bestMatch_nil (b : Str) : bestMatch [] b = (0, 0, 0) := by
  unfold bestMatch
  apply foldl_fixed
  intro acc i _
  apply foldl_fixed
  intro acc2 j _
  simp [commonPrefixLen_nil]

/-- An empty first string never matches anything: the ratio against a
nonempty string is `0`. -/
theorem ratioL_nil (b : Str) (hb : b ≠ []) : ratioL [] b = 0 := by
  unfold ratioL matchesTotal
  have hlen : b.length ≠ 0 := by simpa using hb
  rw [if_neg (by simpa using hlen)]
  rw [show ([] : Str).length + b.length + 1 = b.length + 1 by simp]
  rw [show matchesAux (b.length + 1) [] b = 0 by
    rw [show b.length + 1 = b.length + 1 from rfl]
    unfold matchesAux
    rw [bestMatch_nil]
    simp]
  simp

/-! ## The heuristic chunker (`chunk.py` lines 6-36)

`chunk(q, chunk_translation)` repeatedly translates the unconsumed input
through the probe `chunk_translation`, scans the prefixes of the unconsumed
input (up to twice the translated chunk's length, breaking at the first
prefix longer than the input) for the one most similar to the translated
chunk, and consumes the best prefix — defaulting to the whole remaining
input when no prefix beats the `0.5` threshold.  The loop runs while
`unchunked_input.strip()` is nonempty; Python's `str.strip()` is modelled
with `Char.isWhitespace`.  The dead `else` branch of the source (line 31,
unreachable because `best_substring_index` is never `None`) is omitted.
The loop is implemented on fuel; `q.length + 1` fuel is proved sufficient
(`chunk_terminates` below). -/

/-- Python `s.strip()`. -/
def pyStrip (s : Str) : Str :=
  ((s.dropWhile Char.isWhitespace).reverse.dropWhile Char.isWhitespace).reverse

/-- The prefix-search of one chunker iteration (chunk.py lines 15-26):
fold over `i in range(len(translated_chunk) * 2)` (breaking when
`i > len(unchunked_input)`), tracking the best `(index, score)` pair,
starting from `(len(unchunked_input), 0.5)` and replacing it whenever a
prefix scores strictly higher. -/
def bestSubstringIndex (unchunked_input translated_chunk : Str) : Nat :=
  ((List.range (translated_chunk.length * 2)).takeWhile
      (fun i => i ≤ unchunked_input.length)).foldl
    (fun (best : Nat × ℚ) i =>
      let score := ratioL (unchunked_input.take i) translated_chunk
      if score > best.2 then (i, score) else best)
    (unchunked_input.length, 1/2)
    |>.1

/-- The chunker loop on fuel: `none` means the fuel ran out with input still
unconsumed (proved impossible for fuel `> q.length`). -/
def chunkAux (chunk_translation : Str → Str) : Nat → Str → Option (List Str)
  | 0, unchunked_input =>
    if (pyStrip unchunked_input).length = 0 then some [] else none
  | fuel + 1, unchunked_input =>
    if (pyStrip unchunked_input).length = 0 then some []
    else
      let translated_chunk := chunk_translation unchunked_input
      let best_substring_index :=
        bestSubstringIndex unchunked_input translated_chunk
      (chunkAux chunk_translation fuel
          (unchunked_input.drop best_substring_index)).map
        (fun rest => unchunked_input.take best_substring_index :: rest)

/-- `chunk.py::chunk`. -/
def chunk (q : Str) (chunk_translation : Str → Str) : Option (List Str) :=
  chunkAux chunk_translation (q.length + 1) q

/-! ## Substring search and multi-character split

Python's `s.find(pat)` (first index of an occurrence, `-1`/`none` when
absent) and `s.split(sep)` for a nonempty separator. -/

def findSubAux (pat : Str) : Str → Nat → Option Nat
  | l, acc =>
    if pat.isPrefixOf l then some acc
    else
      match l with
      | [] => none
      | _ :: rest => findSubAux pat rest (acc + 1)

/-- Python `s.find(pat)`, with `none` for `-1`. -/
def findSub (pat s : Str) : Option Nat := findSubAux pat s 0

/-- Python slice `s[a:b]` for `0 ≤ a ≤ b`. -/
def sliceL (s : Str) (a b : Nat) : Str := (s.drop a).take (b - a)

/-- Python `s.split(sep)` for nonempty `sep`, on fuel (each step consumes at
least one character, so `s.length + 1` fuel always suffices). -/
def splitOnStrAux (sep : Str) : Nat → Str → List Str
  | 0, s => [s]
  | fuel + 1, s =>
    match findSub sep s with
    | none => [s]
    | some i => s.take i :: splitOnStrAux sep fuel (s.drop (i + sep.length))

def splitOnStr (s sep : Str) : List Str := splitOnStrAux sep (s.length + 1) s

/-! ## Few-shot sentence boundary detection (`sbd.py` lines 173-234)

Only the pure parts that `FewShotTranslation.hypotheses` calls are
modelled; the installed-package based classes of `sbd.py` wrap external
models and are outside this core. -/

def DETECT_SENTENCE_BOUNDARIES_TOKEN : Str :=
  "<detect-sentence-boundaries>".toList

def SENTENCE_BOUNDARY_TOKEN : Str := "<sentence-boundary>".toList

/-- `"-" * 10`. -/
def FEWSHOT_BOUNDARY_TOKEN : Str := "----------".toList

/-- The literal `fewshot_prompt` of sbd.py (lines 173-182). -/
def fewshot_prompt : Str :=
  ("<detect-sentence-boundaries> I walked down to the river. Then I went to the\n"
    ++ "I walked down to the river. <sentence-boundary>\n"
    ++ "----------\n"
    ++ "<detect-sentence-boundaries> Argos Translate is machine translation software. It is also\n"
    ++ "Argos Translate is machine translation software. <sentence-boundary>\n"
    ++ "----------\n"
    ++ "<detect-sentence-boundaries> Argos Translate is written in Python and uses OpenAI. It also supports\n"
    ++ "Argos Translate is written in Python and uses OpenAI. <sentence-boundary>\n"
    ++ "----------\n").toList

/-- `sbd.py::generate_fewshot_sbd_prompt` (default
`sentence_guess_length=150`). -/
def generate_fewshot_sbd_prompt (input_text : Str)
    (sentence_guess_length : Nat := 150) : Str :=
  fewshot_prompt ++ "<detect-sentence-boundaries> ".toList
    ++ input_text.take sentence_guess_length

/-- `sbd.py::parse_fewshot_response`: split on the ten-dash boundary token,
take the second-to-last piece, split it on newlines, take the last line. -/
def parse_fewshot_response (response_text : Str) : Option Str :=
  let response := splitOnStr response_text FEWSHOT_BOUNDARY_TOKEN
  if response.length < 2 then none
  else
    let response2 := splitNL (response.getD (response.length - 2) [])
    if response2.length < 2 then none
    else some (response2.getD (response2.length - 1) [])

/-- `sbd.py::process_seq2seq_sbd`: truncate the guess at the
`<sentence-boundary>` token (returning `-1` if the token is absent), then
scan every prefix of `input_text`, keeping the index with the highest
similarity ratio (first projection of the running `(best_index, best_ratio)`
pair, seeded at `i == 0`). -/
def process_seq2seq_sbd (input_text sbd_translated_guess : Str) : Int :=
  match findSub SENTENCE_BOUNDARY_TOKEN sbd_translated_guess with
  | none => -1
  | some idx =>
    let g := sbd_translated_guess.take idx
    (((List.range input_text.length).foldl
      (fun (best : Nat × ℚ) i =>
        let r := ratioL (input_text.take i) g
        if i = 0 ∨ r > best.2 then (i, r) else best)
      (0, 0)).1 : Int)

/-! ## Few-shot prompting (`fewshot.py`) -/

/-- The worked-examples literal `prompt` of fewshot.py (lines 1-16). -/
def fewshot_translation_prompt : Str :=
  ("Translate to French (fr)\n"
    ++ "From English (es)\n"
    ++ "==========\n"
    ++ "Bramshott is a village with mediaeval origins in the East Hampshire district of Hampshire, England. It lies 0.9 miles (1.4 km) north of Liphook. The nearest railway station, Liphook, is 1.3 miles (2.1 km) south of the village. \n"
    ++ "----------\n"
    ++ "Bramshott est un village avec des origines médiévales dans le quartier East Hampshire de Hampshire, en Angleterre. Il se trouve à 0,9 miles (1,4 km) au nord de Liphook. La gare la plus proche, Liphook, est à 1,3 km (2,1 km) au sud du village.\n"
    ++ "==========\n"
    ++ "\n"
    ++ "Translate to Russian (rs)\n"
    ++ "From German (de)\n"
    ++ "==========\n"
    ++ "Der Gewöhnliche Strandhafer (Ammophila arenaria (L.) Link; Syn: Calamagrostis arenaria (L.) Roth) – auch als Gemeiner Strandhafer, Sandrohr, Sandhalm, Seehafer oder Helm (niederdeutsch) bezeichnet – ist eine zur Familie der Süßgräser (Poaceae) gehörige Pionierpflanze. \n"
    ++ "----------\n"
    ++ "Обычная пляжная овсянка (аммофила ареалия (л.) соединение; сина: каламагростисная анария (л.) Рот, также называемая обычной пляжной овцой, песчаной, сандалмой, морской орой или шлемом (нижний немецкий) - это кукольная станция, принадлежащая семье сладких трав (поа).\n"
    ++ "==========\n").toList

/-- `fewshot.py::generate_prompt`.  Python truthiness of a string is
nonemptiness. -/
def generate_prompt (text from_name from_code to_name to_code : Str) : Str :=
  let r1 := fewshot_translation_prompt ++ "Translate to ".toList
  let r2 := if from_name ≠ [] then r1 ++ from_name else r1
  let r3 := if from_code ≠ [] then
      r2 ++ " (".toList ++ from_code ++ ")".toList else r2
  let r4 := r3 ++ "\nFrom ".toList
  let r5 := if to_name ≠ [] then r4 ++ to_name else r4
  let r6 := if from_code ≠ [] then
      r5 ++ " (".toList ++ to_code ++ ")".toList else r5
  r6 ++ "\n==========\n".toList ++ text ++ "\n----------\n".toList

/-- `fewshot.py::parse_inference`: find the first ten-equals (else
ten-dash) delimiter and return the single character `output[end_index]`
(the source's slice is `output[end_index]`, one character, not a prefix);
return the whole output when neither delimiter occurs. -/
def parse_inference (output : Str) : Str :=
  match findSub "==========".toList output with
  | some end_index => (output.drop end_index).take 1
  | none =>
    match findSub "----------".toList output with
    | some end_index => (output.drop end_index).take 1
    | none => output

/-! ## `FewShotTranslation` (translate.py lines 342-393)

The language model capability (`ILanguageModel.infer`) is an oracle
`Str → Str`.  The sentence-splitting `while` loop advances `start_index` by
the detected boundary (or by `DEFAULT_SENTENCE_LENGTH = 250`); if the
few-shot response cannot be parsed (`parse_fewshot_response` returns
`None`), Python would raise on `None.find`, modelled as `none`; a
`detected_sentence_index` of `0` would loop forever in Python, modelled as
`none` on fuel exhaustion. -/

/-- The sentence-accumulation loop of `FewShotTranslation.hypotheses`
(lines 358-376), on fuel, returning the accumulated sentences and the
prompts passed to `language_model.infer`, in order. -/
def fewShotSentencesAux (infer : Str → Str) (input_text : Str) :
    Nat → Nat → List Str → List Str → Option (List Str × List Str)
  | 0, start_index, sentences, calls =>
    if start_index < input_text.length - 1 then none
    else some (sentences, calls)
  | fuel + 1, start_index, sentences, calls =>
    if start_index < input_text.length - 1 then
      let prompt := generate_fewshot_sbd_prompt (input_text.drop start_index)
      match parse_fewshot_response (infer prompt) with
      | none => none
      | some response =>
        let detected := process_seq2seq_sbd (input_text.drop start_index)
          response
        let sbd_index := if detected = -1 then start_index + 250
          else start_index + detected.toNat
        fewShotSentencesAux infer input_text fuel sbd_index
          (sentences ++ [sliceL input_text start_index sbd_index])
          (calls ++ [prompt])
    else some (sentences, calls)

/-- `FewShotTranslation.hypotheses` (translate.py lines 356-393), with the
language model as an oracle.  Returns the hypotheses plus all `infer`
inputs; `none` models a crash or divergence of the Python loop. -/
def fewShotHypotheses (infer : Str → Str)
    (from_name from_code to_name to_code : Str) (input_text : Str)
    (num_hypotheses : Nat) : Option (List Hyp × List Str) :=
  match fewShotSentencesAux infer input_text (input_text.length + 1) 0 [] []
    with
  | none => none
  | some (sentences, calls1) =>
    let st := sentences.foldl
      (fun (st : Str × List Str) sentence =>
        let prompt := generate_prompt sentence from_name from_code to_name
          to_code
        let response := infer prompt
        (st.1 ++ parse_inference response, st.2 ++ [prompt]))
      ([], calls1)
    some (List.replicate num_hypotheses (Hyp.mk st.1 0), st.2)

/-! ## Tag trees (`tags.py`)

`ITag.children` is a Python list of tags and strings.  To keep every
function structurally recursive (and hence kernel-computable), the tree and
its child list are a mutual inductive pair: a `TagNode` is either a string
child or a tag node with a `translateable` flag and children. -/

mutual
inductive TagNode : Type where
  | text (s : Str)
  | tag (translateable : Bool) (children : TagList)
deriving Repr

inductive TagList : Type where
  | nil
  | cons (head : TagNode) (tail : TagList)
deriving Repr
end

namespace TagList

def length : TagList → Nat
  | .nil => 0
  | .cons _ t => t.length + 1

def append : TagList → TagList → TagList
  | .nil, l => l
  | .cons h t, l => .cons h (t.append l)

end TagList

mutual
/-- `tags.py::depth` (lines 74-86): a string has depth 0, a tag with no
children has depth 0, otherwise 1 + the maximum depth of a child. -/
def depthT : TagNode → Nat
  | .text _ => 0
  | .tag _ .nil => 0
  | .tag _ cs => depthL cs + 1

/-- Maximum depth over a (nonempty) child list. -/
def depthL : TagList → Nat
  | .nil => 0
  | .cons h t => max (depthT h) (depthL t)
end

mutual
/-- `Tag.text` (lines 64-71): concatenation of all children, strings as
themselves and tags recursively. -/
def textT : TagNode → Str
  | .text s => s
  | .tag _ cs => textL cs

def textL : TagList → Str
  | .nil => []
  | .cons h t => textT h ++ textL t
end

mutual
/-- `tags.py::is_same_structure` (lines 89-111). -/
def sameStructT : TagNode → TagNode → Bool
  | .text _, .text _ => true
  | .text _, .tag _ _ => false
  | .tag _ _, .text _ => false
  | .tag _ cs, .tag _ ds => sameStructL cs ds

def sameStructL : TagList → TagList → Bool
  | .nil, .nil => true
  | .cons h t, .cons h' t' => sameStructT h h' && sameStructL t t'
  | _, _ => false
end

mutual
/-- `ITag.__eq__` (lines 46-53): same number of children and pairwise equal
children; a tag never equals a string; the `translateable` flag is NOT
compared.  Strings compare by value. -/
def tagEq : TagNode → TagNode → Bool
  | .text a, .text b => a = b
  | .tag _ cs, .tag _ ds => tagEqL cs ds
  | _, _ => false

def tagEqL : TagList → TagList → Bool
  | .nil, .nil => true
  | .cons h t, .cons h' t' => tagEq h h' && tagEqL t t'
  | _, _ => false
end

def ARGOS_OPEN_TAG : Str := "<argos-tag>".toList
def ARGOS_CLOSE_TAG : Str := "</argos-tag>".toList

mutual
/-- `tags.py::flatten_tag` (lines 120-128): concatenate the children, each
tag child rendered as `<argos-tag>{child.text()}</argos-tag>`.  (In the
source `flatten_tag` is only applied to `ITag` nodes; a bare string child
is rendered as itself.) -/
def flatten_tag : TagNode → Str
  | .text s => s
  | .tag _ cs => flattenChildren cs

def flattenChildren : TagList → Str
  | .nil => []
  | .cons (.text s) t => s ++ flattenChildren t
  | .cons (.tag b cs) t =>
    ARGOS_OPEN_TAG ++ textL cs ++ ARGOS_CLOSE_TAG ++ flattenChildren t
end

/-- The parse loop of `tags.py::unflatten_tag` (lines 137-152), on fuel
(every iteration consumes at least one character, so `length + 1` fuel
suffices).  When the closing sentinel is absent Python's `find` returns
`-1` and the slices become `flat[11:-1]` and `flat[11:]`; that arithmetic
is reproduced literally. -/
def unflattenAux : Nat → Str → TagList → Option TagList
  | 0, flat, acc => if flat.length = 0 then some acc else none
  | fuel + 1, flat, acc =>
    if flat.length = 0 then some acc
    else
      match findSub ARGOS_OPEN_TAG flat with
      | none => some (acc.append (.cons (.text flat) .nil))
      | some open_tag_index =>
        if open_tag_index > 0 then
          unflattenAux fuel (flat.drop open_tag_index)
            (acc.append (.cons (.text (flat.take open_tag_index)) .nil))
        else
          match findSub ARGOS_CLOSE_TAG flat with
          | some closing_tag_index =>
            unflattenAux fuel
              (flat.drop (closing_tag_index + ARGOS_CLOSE_TAG.length))
              (acc.append (.cons
                (.tag true (.cons
                  (.text (sliceL flat ARGOS_OPEN_TAG.length closing_tag_index))
                  .nil)) .nil))
          | none =>
            unflattenAux fuel (flat.drop ARGOS_OPEN_TAG.length)
              (acc.append (.cons
                (.tag true (.cons
                  (.text (sliceL flat ARGOS_OPEN_TAG.length (flat.length - 1)))
                  .nil)) .nil))

/-- `tags.py::unflatten_tag` (lines 131-157): parse the sentinel-delimited
string back into a tag, returning `None` unless the result has depth
exactly 2. -/
def unflatten_tag (flat_tag : Str) : Option TagNode :=
  match unflattenAux (flat_tag.length + 1) flat_tag .nil with
  | none => none
  | some children =>
    if depthT (.tag true children) ≠ 2 then none
    else some (.tag true children)

/-- `similarity < 1 / GOLDEN_RATIO` decided exactly over `ℚ`:
for `q ≥ 0`, `q < (√5 - 1)/2  ↔  (2q + 1)² < 5`. -/
def ltInvGolden (q : ℚ) : Bool :=
  if q < 0 then true else (2 * q + 1) ^ 2 < 5

/-- The copy-back loop of `translate_tag_chunk` (lines 208-218): a tag
child keeps its own `translateable` flag but takes the attempt's children;
a string child is replaced by the attempt's element. -/
def copyBackL : TagList → TagList → TagList
  | .nil, _ => .nil
  | .cons o os, .nil => .cons o os
  | .cons (.tag b _) os, .cons (.tag _ ds) as_ =>
    .cons (.tag b ds) (copyBackL os as_)
  | .cons (.text _) os, .cons a as_ => .cons a (copyBackL os as_)
  | .cons o os, .cons _ as_ => .cons o (copyBackL os as_)

def copyBack : TagNode → TagNode → TagNode
  | .tag b cs, .tag b' ds => .tag b (copyBackL cs ds)
  | t, _ => t

/-- `tags.py::translate_tag_chunk` (lines 160-218), with the translation's
`translate` as an oracle `tr`.  Returns the translated tag (or `none` when
the attempt is rejected) together with the inputs passed to `tr`. -/
def translate_tag_chunk (tr : Str → Str) (t : TagNode) :
    Option TagNode × List Str :=
  let flat := flatten_tag t
  let translated_prompt := tr flat
  match unflatten_tag translated_prompt with
  | none => (none, [flat])
  | some attempt =>
    if ¬ sameStructT t attempt then (none, [flat])
    else
      let translated_without_tags := tr (textT t)
      let sim := ratioL (textT attempt) translated_without_tags
      if ltInvGolden sim then (none, [flat, textT t])
      else (some (copyBack t attempt), [flat, textT t])

mutual
/-- `tags.py::translate_tags` (lines 221-245), with the translation's
`translate` as an oracle.  Returns the translated tree together with every
input passed to the translation, in call order: a string leaf is
translated directly; a non-translateable node is returned unchanged (no
translation call at all); a depth-2 node first tries tag injection and, on
rejection, falls through to the per-child recursion. -/
def translate_tags (tr : Str → Str) : TagNode → TagNode × List Str
  | .text s => (.text (tr s), [s])
  | .tag translateable cs =>
    if translateable = false then (.tag translateable cs, [])
    else if depthT (.tag translateable cs) = 2 then
      match translate_tag_chunk tr (.tag translateable cs) with
      | (some t', calls) => (t', calls)
      | (none, calls) =>
        let r := translateTagsL tr cs
        (.tag translateable r.1, calls ++ r.2)
    else
      let r := translateTagsL tr cs
      (.tag translateable r.1, r.2)

def translateTagsL (tr : Str → Str) : TagList → TagList × List Str
  | .nil => (.nil, [])
  | .cons h t =>
    let rh := translate_tags tr h
    let rt := translateTagsL tr t
    (.cons rh.1 rt.1, rh.2 ++ rt.2)
end

/-! ## The translation graph (`translate.py::get_installed_languages`)

Languages are mutable objects holding `translations_from` /
`translations_to` lists; the mutable heap is modelled as a list of language
records in creation order (`language_of_code` is insertion-ordered), and
every mutation is an append through the state.  A graph edge is a `Trans`
tree: a package edge (the `CachedTranslation(PackageTranslation(...))` made
for one installed package), the `IdentityTranslation` of a language, or a
`CompositeTranslation` of two edges.  `from_lang`/`to_lang` of an edge are
fixed at construction (composite endpoints come from `t1`/`t2`), so they
are stored/computed as codes. -/

structure PkgD where
  from_code : Str
  from_name : Str
  to_code : Str
  to_name : Str
  ptype : Str
  from_codes : List Str
deriving DecidableEq, Repr

inductive Trans : Type where
  | pkgT (from_code to_code : Str) (pkg : PkgD)
  | idT (code : Str)
  | compT (t1 t2 : Trans)
deriving DecidableEq, Repr

/-- `to_lang.code` of an edge. -/
def Trans.toCode : Trans → Str
  | .pkgT _ t _ => t
  | .idT c => c
  | .compT _ t2 => t2.toCode

/-- `from_lang.code` of an edge. -/
def Trans.fromCode : Trans → Str
  | .pkgT f _ _ => f
  | .idT c => c
  | .compT t1 _ => t1.fromCode

/-- `translate.py::Language`. -/
structure LangS where
  code : Str
  name : Str
  translations_from : List Trans
  translations_to : List Trans
deriving DecidableEq, Repr

/-- The heap of language objects, in creation order. -/
abbrev GS := List LangS

/-- `Language.get_translation` (translate.py lines 136-152): the first
element of `translations_from` whose `to_lang.code` equals `to.code`,
else `None`. -/
def get_translation (l : LangS) (toL : LangS) : Option Trans :=
  (l.translations_from.filter (fun t => t.toCode = toL.code)).head?

def findLang (gs : GS) (c : Str) : Option LangS :=
  gs.find? (fun l => l.code = c)

def tfOf (gs : GS) (c : Str) : List Trans :=
  ((findLang gs c).map (·.translations_from)).getD []

def hasLang (gs : GS) (c : Str) : Bool := (findLang gs c).isSome

/-- `language.get_translation(to)` at the state level, by codes. -/
def hasEdge (gs : GS) (c d : Str) : Bool :=
  ((tfOf gs c).filter (fun t => t.toCode = d)).head?.isSome

/-- Append to `translations_from` of the language with code `c`. -/
def addTF (gs : GS) (c : Str) (t : Trans) : GS :=
  gs.map (fun l => if l.code = c then
    { l with translations_from := l.translations_from ++ [t] } else l)

/-- Append to `translations_to` of the language with code `c`. -/
def addTT (gs : GS) (c : Str) (t : Trans) : GS :=
  gs.map (fun l => if l.code = c then
    { l with translations_to := l.translations_to ++ [t] } else l)

/-- Loading one package (translate.py lines 529-554): create the `from` and
`to` languages on first sight (in that order, so `from == to` creates one
language), then append the package's cached translation to
`from_lang.translations_from` and `to_lang.translations_to`. -/
def loadPackage (gs : GS) (pkg : PkgD) : GS :=
  let gs1 := if hasLang gs pkg.from_code then gs
    else gs ++ [LangS.mk pkg.from_code pkg.from_name [] []]
  let gs2 := if hasLang gs1 pkg.to_code then gs1
    else gs1 ++ [LangS.mk pkg.to_code pkg.to_name [] []]
  let t := Trans.pkgT pkg.from_code pkg.to_code pkg
  addTT (addTF gs2 pkg.from_code t) pkg.to_code t

def loadPackages (packages : List PkgD) : GS := packages.foldl loadPackage []

/-- The self-translation pass (translate.py lines 558-562): every language
gets an `IdentityTranslation` appended to both lists. -/
def addIdentities (gs : GS) : GS :=
  gs.map (fun l =>
    { l with
      translations_from := l.translations_from ++ [Trans.idT l.code],
      translations_to := l.translations_to ++ [Trans.idT l.code] })

/-! ### The pivot closure pass (translate.py lines 564-582)

For each language, the source repeatedly scans `language.translations_from`
(a live, growing list — Python's `for` visits elements appended during the
loop) and, for each edge pair `e1 : L → M`, `e2 : M → N` with no existing
`L → N` edge, appends `CompositeTranslation(e1, e2)`.  The scan is modelled
with explicit indices `i`, `j` into the current lists (append-only, so the
element at a fixed index never changes) and fuel; `pivotFuel` fuel is proved
sufficient below.  The `while keep_adding` loop re-runs the scan until a
scan adds nothing. -/

def codesOf (gs : GS) : List Str := gs.map (·.code)

def totalTF (gs : GS) : Nat :=
  (gs.map (fun l => l.translations_from.length)).sum

/-- All language codes plus all edge destination codes, as a finite set:
the universe in which the pivot pass can create new destinations. -/
def destSet (gs : GS) : Finset Str :=
  (codesOf gs ++ gs.flatMap (fun l => l.translations_from.map Trans.toCode)
    ).toFinset

/-- Number of destinations the language with code `c` cannot yet reach;
strictly decreases with every composite the pivot pass adds. -/
def missingCount (gs : GS) (c : Str) : Nat :=
  ((destSet gs).filter (fun d => ¬ hasEdge gs c d)).card

/-- One scan of the nested `for` loops for the language with code `c`,
from position `(i, j)`: `i` indexes `language.translations_from`, `j`
indexes `translation.to_lang.translations_from`, both read from the current
state.  Returns the new state and whether any composite was added
(`keep_adding`); `none` on fuel exhaustion. -/
def pivotPass (c : Str) : Nat → GS → Nat → Nat → Bool → Option (GS × Bool)
  | 0, _, _, _, _ => none
  | fuel + 1, gs, i, j, added =>
    match (tfOf gs c).get? i with
    | none => some (gs, added)
    | some translation =>
      match (tfOf gs translation.toCode).get? j with
      | none => pivotPass c fuel gs (i + 1) 0 added
      | some translation_2 =>
        if hasEdge gs c translation_2.toCode then
          pivotPass c fuel gs i (j + 1) added
        else
          let composite := Trans.compT translation translation_2
          pivotPass c fuel
            (addTT (addTF gs c composite) translation_2.toCode composite)
            i (j + 1) true

/-- Fuel sufficient for one full scan (proved in `pivotPass_isSome`). -/
def pivotFuel (gs : GS) (c : Str) : Nat :=
  let K := totalTF gs + missingCount gs c + 2
  missingCount gs c * K * K + K * K + K + 1

/-- The `while keep_adding` loop for one language, on fuel
(`missingCount gs c + 1` suffices: every `keep_adding` scan strictly
decreases `missingCount`). -/
def pivotWhile (c : Str) : Nat → GS → GS
  | 0, gs => gs
  | fuel + 1, gs =>
    match pivotPass c (pivotFuel gs c) gs 0 0 false with
    | none => gs
    | some (gs', true) => pivotWhile c fuel gs'
    | some (gs', false) => gs'

/-- The pivot pass over all languages, in creation order (the `languages`
list is fixed before the loop; the loop only grows edge lists). -/
def pivotClosure (gs : GS) : GS :=
  (codesOf gs).foldl (fun g c => pivotWhile c (missingCount g c + 1) g) gs

/-! ### Final ordering and the full builder -/

/-- Lexicographic-by-code-point comparison of Python strings. -/
def leStr : Str → Str → Bool
  | [], _ => true
  | _ :: _, [] => false
  | a :: as_, b :: bs =>
    if a.val < b.val then true
    else if b.val < a.val then false
    else leStr as_ bs

def leName (a b : LangS) : Bool := leStr a.name b.name

/-- The English-first presentation ordering (translate.py lines 609-620):
pop the first language with code `"en"` if any, sort the rest stably by
display name, and put English back in front. -/
def reorderLanguages (languages : GS) : GS :=
  match languages.findIdx? (fun l => l.code = "en".toList) with
  | some en_index =>
    match languages.get? en_index with
    | some english =>
      english :: (languages.take en_index
        ++ languages.drop (en_index + 1)).mergeSort leName
    | none => languages.mergeSort leName
  | none => languages.mergeSort leName

/-- The `translate`-package filter (translate.py lines 514-525): when
stanza is not available, first keep only packages whose `from_code` is
covered by some installed sbd package, then keep the `type == "translate"`
packages. -/
def translatePackages (packages : List PkgD) (stanza_available : Bool) :
    List PkgD :=
  let packages1 :=
    if stanza_available then packages
    else
      let sbd_packages := packages.filter (fun p => p.ptype = "sbd".toList)
      let sbd_available_codes := sbd_packages.flatMap (fun p => p.from_codes)
      packages.filter (fun p => p.from_code ∈ sbd_available_codes)
  packages1.filter (fun p => p.ptype = "translate".toList)

/-- Graph construction from the effective translate packages: load, add
identities, close under pivoting (translate.py lines 528-582). -/
def buildGraph (packages : List PkgD) : GS :=
  pivotClosure (addIdentities (loadPackages packages))

/-- `translate.py::get_installed_languages` (lines 506-622) for the
OpenNMT model provider (the LibreTranslate and OpenAI provider branches
build their language lists from remote-API data and contain no graph
algorithm).  `installed_translates` is the empty global of a fresh
process: every package gets a fresh cached translation. -/
def get_installed_languages (packages : List PkgD)
    (stanza_available : Bool) : GS :=
  reorderLanguages (buildGraph (translatePackages packages stanza_available))

/-! ### Basic state lemmas -/

theorem map_eq_self_of {α : Type} (f : α → α) (l : List α)
    (h : ∀ a ∈ l, f a = a) : l.map f = l := by
  induction l with
  | nil => rfl
  | cons a as ih =>
    rw [List.map_cons, h a (List.mem_cons_self a as),
      ih (fun b hb => h b (List.mem_cons_of_mem a hb))]

theorem findLang_map (f : LangS → LangS) (hf : ∀ l, (f l).code = l.code)
    (gs : GS) (c : Str) :
    findLang (gs.map f) c = (findLang gs c).map f := by
  induction gs with
  | nil => rfl
  | cons l ls ih =>
    by_cases h : l.code = c
    · rw [List.map_cons]
      unfold findLang
      rw [List.find?_cons_of_pos _ (by simp [hf, h]),
        List.find?_cons_of_pos _ (by simp [h])]
      rfl
    · rw [List.map_cons]
      unfold findLang
      rw [List.find?_cons_of_neg _ (by simp [hf, h]),
        List.find?_cons_of_neg _ (by simp [h])]
      exact ih

theorem codesOf_map (f : LangS → LangS) (hf : ∀ l, (f l).code = l.code)
    (gs : GS) : codesOf (gs.map f) = codesOf gs := by
  unfold codesOf
  rw [List.map_map]
  exact List.map_congr_left (fun l _ => hf l)

theorem hasLang_iff (gs : GS) (c : Str) :
    hasLang gs c = true ↔ c ∈ codesOf gs := by
  unfold hasLang findLang codesOf
  rw [List.find?_isSome]
  constructor
  · rintro ⟨l, hl, hc⟩
    simp only [decide_eq_true_eq] at hc
    exact List.mem_map.mpr ⟨l, hl, hc⟩
  · intro h
    obtain ⟨l, hl, hc⟩ := List.mem_map.mp h
    exact ⟨l, hl, by simp [hc]⟩

theorem tfOf_addTT (gs : GS) (e : Str) (t : Trans) (d : Str) :
    tfOf (addTT gs e t) d = tfOf gs d := by
  unfold tfOf addTT
  rw [findLang_map _ (fun l => by split <;> rfl)]
  cases h : findLang gs d with
  | none => rfl
  | some l =>
    dsimp only [Option.map_some']
    split <;> rfl

theorem codesOf_addTT (gs : GS) (e : Str) (t : Trans) :
    codesOf (addTT gs e t) = codesOf gs :=
  codesOf_map _ (fun l => by split <;> rfl) gs

theorem codesOf_addTF (gs : GS) (e : Str) (t : Trans) :
    codesOf (addTF gs e t) = codesOf gs :=
  codesOf_map _ (fun l => by split <;> rfl) gs

theorem tfOf_addTF_ne (gs : GS) (e : Str) (t : Trans) (d : Str)
    (hd : d ≠ e) : tfOf (addTF gs e t) d = tfOf gs d := by
  unfold tfOf addTF
  rw [findLang_map _ (fun l => by split <;> rfl)]
  cases h : findLang gs d with
  | none => rfl
  | some l =>
    have hc : l.code = d := by
      have := List.find?_some h
      simpa using this
    dsimp only [Option.map_some']
    rw [if_neg (by rw [hc]; exact hd)]

theorem tfOf_addTF_self (gs : GS) (e : Str) (t : Trans)
    (h : hasLang gs e = true) :
    tfOf (addTF gs e t) e = tfOf gs e ++ [t] := by
  unfold tfOf addTF
  rw [findLang_map _ (fun l => by split <;> rfl)]
  unfold hasLang at h
  cases hf : findLang gs e with
  | none => rw [hf] at h; simp at h
  | some l =>
    have hc : l.code = e := by
      have := List.find?_some hf
      simpa using this
    dsimp only [Option.map_some']
    rw [if_pos hc]
    rfl

theorem addTF_not_hasLang (gs : GS) (e : Str) (t : Trans)
    (h : hasLang gs e = false) : addTF gs e t = gs := by
  unfold addTF
  apply map_eq_self_of
  intro l hl
  have hne : l.code ≠ e := by
    intro hc
    have : hasLang gs e = true := by
      unfold hasLang findLang
      rw [List.find?_isSome]
      exact ⟨l, hl, by simp [hc]⟩
    rw [this] at h; exact absurd h (by simp)
  rw [if_neg hne]

theorem hasEdge_iff (gs : GS) (c d : Str) :
    hasEdge gs c d = true ↔ ∃ t ∈ tfOf gs c, t.toCode = d := by
  unfold hasEdge
  constructor
  · intro h
    rcases hfil : (tfOf gs c).filter (fun t => t.toCode = d) with _ | ⟨a, l⟩
    · rw [hfil] at h; simp at h
    · have ha : a ∈ (tfOf gs c).filter (fun t => t.toCode = d) := by
        rw [hfil]; exact List.mem_cons_self a l
      have h2 := List.mem_filter.mp ha
      exact ⟨a, h2.1, by simpa using h2.2⟩
  · rintro ⟨t, hmem, htc⟩
    have hm : t ∈ (tfOf gs c).filter (fun t => t.toCode = d) :=
      List.mem_filter.mpr ⟨hmem, by simp [htc]⟩
    rcases hfil : (tfOf gs c).filter (fun t => t.toCode = d) with _ | ⟨a, l⟩
    · rw [hfil] at hm; simp at hm
    · rw [hfil]; rfl

theorem hasEdge_addTT (gs : GS) (e : Str) (t : Trans) (c d : Str) :
    hasEdge (addTT gs e t) c d = hasEdge gs c d := by
  unfold hasEdge
  rw [tfOf_addTT]

theorem hasEdge_addTF_mono (gs : GS) (e : Str) (t : Trans) (c d : Str)
    (h : hasEdge gs c d = true) : hasEdge (addTF gs e t) c d = true := by
  rw [hasEdge_iff] at h ⊢
  obtain ⟨tr, hmem, htc⟩ := h
  by_cases hce : c = e
  · subst hce
    by_cases hl : hasLang gs c
    · rw [tfOf_addTF_self gs c t hl]
      exact ⟨tr, List.mem_append_left _ hmem, htc⟩
    · rw [addTF_not_hasLang gs c t (by simpa using hl)]
      exact ⟨tr, hmem, htc⟩
  · rw [tfOf_addTF_ne gs e t c hce]
    exact ⟨tr, hmem, htc⟩

theorem hasEdge_addTF_self (gs : GS) (c : Str) (t : Trans)
    (h : hasLang gs c = true) :
    hasEdge (addTF gs c t) c t.toCode = true := by
  rw [hasEdge_iff, tfOf_addTF_self gs c t h]
  exact ⟨t, List.mem_append_right _ (List.mem_singleton_self t), rfl⟩

/-! ### The decreasing measure of the pivot pass -/

theorem mem_destSet (gs : GS) (d : Str) :
    d ∈ destSet gs ↔ d ∈ codesOf gs
      ∨ ∃ l ∈ gs, ∃ tr ∈ l.translations_from, tr.toCode = d := by
  unfold destSet
  rw [List.mem_toFinset, List.mem_append]
  simp [List.mem_flatMap, List.mem_map, eq_comm]

theorem destSet_addTT (gs : GS) (e : Str) (t : Trans) :
    destSet (addTT gs e t) = destSet gs := by
  unfold destSet
  congr 1
  rw [codesOf_addTT]
  congr 1
  unfold addTT
  induction gs with
  | nil => rfl
  | cons l ls ih =>
    simp only [List.map_cons, List.flatMap_cons, ih]
    congr 2
    split <;> rfl

theorem exists_lang_of_hasLang (gs : GS) (c : Str)
    (h : hasLang gs c = true) : ∃ l ∈ gs, l.code = c := by
  unfold hasLang findLang at h
  rw [List.find?_isSome] at h
  obtain ⟨l, hl, hc⟩ := h
  exact ⟨l, hl, by simpa using hc⟩

theorem destSet_addTF (gs : GS) (c : Str) (t : Trans)
    (h : hasLang gs c = true) :
    destSet (addTF gs c t) = insert t.toCode (destSet gs) := by
  apply Finset.ext
  intro d
  rw [Finset.mem_insert, mem_destSet, mem_destSet, codesOf_addTF]
  constructor
  · rintro (hc | ⟨l', hl', tr, htr, htc⟩)
    · exact Or.inr (Or.inl hc)
    · obtain ⟨l, hl, hfl⟩ := List.mem_map.mp hl'
      by_cases hlc : l.code = c
      · rw [if_pos hlc] at hfl
        subst hfl
        dsimp only at htr
        rcases List.mem_append.mp htr with hin | hin
        · exact Or.inr (Or.inr ⟨l, hl, tr, hin, htc⟩)
        · rw [List.mem_singleton] at hin
          subst hin
          exact Or.inl htc.symm
      · rw [if_neg hlc] at hfl
        subst hfl
        exact Or.inr (Or.inr ⟨l, hl, tr, htr, htc⟩)
  · rintro (hd | hc | ⟨l, hl, tr, htr, htc⟩)
    · obtain ⟨l, hl, hlc⟩ := exists_lang_of_hasLang gs c h
      refine Or.inr ⟨?_, ?_⟩
      · exact (fun x => if x.code = c then
          { x with translations_from := x.translations_from ++ [t] } else x) l
      refine ⟨List.mem_map.mpr ⟨l, hl, rfl⟩, t, ?_, hd.symm⟩
      dsimp only
      rw [if_pos hlc]
      exact List.mem_append_right _ (List.mem_singleton_self t)
    · exact Or.inl hc
    · refine Or.inr ⟨(fun x => if x.code = c then
        { x with translations_from := x.translations_from ++ [t] } else x) l,
        List.mem_map.mpr ⟨l, hl, rfl⟩, tr, ?_, htc⟩
      dsimp only
      split
      · exact List.mem_append_left _ htr
      · exact htr

theorem missing_addTT (gs : GS) (e : Str) (t : Trans) (c : Str) :
    missingCount (addTT gs e t) c = missingCount gs c := by
  unfold missingCount
  rw [destSet_addTT]
  congr 1
  apply Finset.filter_congr
  intro d _
  simp [hasEdge_addTT]

theorem mem_destSet_of_tfOf (gs : GS) (m : Str) (t2 : Trans)
    (ht2 : t2 ∈ tfOf gs m) : t2.toCode ∈ destSet gs := by
  unfold tfOf at ht2
  cases hf : findLang gs m with
  | none => rw [hf] at ht2; simp at ht2
  | some lm =>
    rw [hf] at ht2
    dsimp only [Option.map_some', Option.getD_some] at ht2
    rw [mem_destSet]
    exact Or.inr ⟨lm, List.mem_of_find?_eq_some hf, t2, ht2, rfl⟩

/-- Adding a composite for a currently missing destination strictly
decreases the number of missing destinations. -/
theorem missing_lt (gs : GS) (c m : Str) (t1 t2 : Trans)
    (hlang : hasLang gs c = true)
    (ht2 : t2 ∈ tfOf gs m)
    (hmiss : hasEdge gs c t2.toCode = false) :
    missingCount
      (addTT (addTF gs c (Trans.compT t1 t2)) t2.toCode (Trans.compT t1 t2)) c
      < missingCount gs c := by
  rw [missing_addTT]
  have hmemd : t2.toCode ∈ destSet gs := mem_destSet_of_tfOf gs m t2 ht2
  unfold missingCount
  rw [destSet_addTF gs c (Trans.compT t1 t2) hlang]
  rw [show (Trans.compT t1 t2).toCode = t2.toCode from rfl,
    Finset.insert_eq_self.mpr hmemd]
  apply Finset.card_lt_card
  rw [Finset.ssubset_iff_of_subset]
  · refine ⟨t2.toCode, ?_, ?_⟩
    · rw [Finset.mem_filter]
      exact ⟨hmemd, by simp [hmiss]⟩
    · rw [Finset.mem_filter]
      rintro ⟨-, hne⟩
      have := hasEdge_addTF_self gs c (Trans.compT t1 t2) hlang
      rw [show (Trans.compT t1 t2).toCode = t2.toCode from rfl] at this
      simp [this] at hne
  · intro d hd
    rw [Finset.mem_filter] at hd ⊢
    refine ⟨hd.1, ?_⟩
    have := hd.2
    simp only [decide_eq_true_eq] at this ⊢
    intro hcon
    exact this (hasEdge_addTF_mono gs c (Trans.compT t1 t2) c d hcon)

/-! ### Fuel sufficiency for `pivotPass`

The measure `missingCount·K² + (K−i)·K + (K−j)` (for a bound `K` dominating
all list lengths and the missing count, preserved because every added edge
removes one missing destination) strictly decreases with every step of the
scan. -/

/-- The scan invariant: every `translations_from` length plus the current
missing count stays below `K`. -/
def pivotInv (K : Nat) (c : Str) (gs : GS) : Prop :=
  ∀ d, (tfOf gs d).length + missingCount gs c < K

def passMeasure (K : Nat) (c : Str) (gs : GS) (i j : Nat) : Nat :=
  missingCount gs c * K * K + (K - i) * K + (K - j)

theorem hasLang_of_tfOf_ne_nil (gs : GS) (c : Str)
    (h : tfOf gs c ≠ []) : hasLang gs c = true := by
  unfold tfOf at h
  unfold hasLang
  cases hf : findLang gs c with
  | none => rw [hf] at h; simp at h
  | some l => rfl

theorem tfOf_addBoth_self (gs : GS) (c e : Str) (t : Trans)
    (h : hasLang gs c = true) :
    tfOf (addTT (addTF gs c t) e t) c = tfOf gs c ++ [t] := by
  rw [tfOf_addTT, tfOf_addTF_self gs c t h]

theorem tfOf_addBoth_len_ge (gs : GS) (c e d : Str) (t : Trans) :
    (tfOf gs d).length ≤ (tfOf (addTT (addTF gs c t) e t) d).length := by
  rw [tfOf_addTT]
  by_cases hd : d = c
  · subst hd
    by_cases hl : hasLang gs d
    · rw [tfOf_addTF_self gs d t hl]
      simp
    · rw [addTF_not_hasLang gs d t (by simpa using hl)]
  · rw [tfOf_addTF_ne gs c t d hd]

theorem pivotInv_add (K : Nat) (c m : Str) (gs : GS) (t1 t2 : Trans)
    (hlang : hasLang gs c = true)
    (ht2 : t2 ∈ tfOf gs m)
    (hmiss : hasEdge gs c t2.toCode = false)
    (inv : pivotInv K c gs) :
    pivotInv K c
      (addTT (addTF gs c (Trans.compT t1 t2)) t2.toCode
        (Trans.compT t1 t2)) := by
  intro d
  have hlt := missing_lt gs c m t1 t2 hlang ht2 hmiss
  have hinv := inv d
  by_cases hd : d = c
  · subst hd
    rw [tfOf_addBoth_self gs d t2.toCode (Trans.compT t1 t2) hlang,
      List.length_append, List.length_singleton]
    have hinvc := inv d
    omega
  · rw [tfOf_addTT, tfOf_addTF_ne gs c _ d hd]
    omega

theorem pivotPass_isSome (c : Str) (K : Nat) :
    ∀ (fuel : Nat) (gs : GS) (i j : Nat) (a : Bool),
      pivotInv K c gs →
      (∀ t1, (tfOf gs c).get? i = some t1 →
        j ≤ (tfOf gs t1.toCode).length) →
      passMeasure K c gs i j < fuel →
      (pivotPass c fuel gs i j a).isSome = true := by
  intro fuel
  induction fuel with
  | zero =>
    intro gs i j a _ _ hm
    exact absurd hm (Nat.not_lt_zero _)
  | succ fuel ih =>
    intro gs i j a inv hj hm
    have hK0 : 0 < K := lt_of_le_of_lt (Nat.zero_le _) (inv c)
    unfold pivotPass
    cases hti : (tfOf gs c).get? i with
    | none => simp
    | some t1 =>
      have hilen : i < (tfOf gs c).length := by
        by_contra hcon
        rw [List.get?_eq_none.mpr (Nat.le_of_not_lt hcon)] at hti
        exact Option.noConfusion hti
      have hiK : i < K := lt_of_lt_of_le hilen
        (le_of_lt (lt_of_le_of_lt (Nat.le_add_right _ _) (inv c)))
      dsimp only
      cases htj : (tfOf gs t1.toCode).get? j with
      | none =>
        have hjK : j < K := lt_of_le_of_lt (hj t1 hti)
          (lt_of_le_of_lt (Nat.le_add_right _ _) (inv t1.toCode))
        apply ih gs (i + 1) 0 a inv (fun t1' _ => Nat.zero_le _)
        have harith : (K - i) * K = (K - (i + 1)) * K + K := by
          rw [show K - i = (K - (i + 1)) + 1 by omega, Nat.succ_mul]
        unfold passMeasure at hm ⊢
        omega
      | some t2 =>
        have hjlen : j < (tfOf gs t1.toCode).length := by
          by_contra hcon
          rw [List.get?_eq_none.mpr (Nat.le_of_not_lt hcon)] at htj
          exact Option.noConfusion htj
        have hjK : j < K := lt_of_lt_of_le hjlen
          (le_of_lt (lt_of_le_of_lt (Nat.le_add_right _ _) (inv t1.toCode)))
        dsimp only
        by_cases he : hasEdge gs c t2.toCode = true
        · rw [if_pos he]
          apply ih gs i (j + 1) a inv
          · intro t1' ht1'
            rw [hti] at ht1'
            cases ht1'
            exact hjlen
          · unfold passMeasure at hm ⊢
            omega
        · rw [if_neg he]
          have hlang : hasLang gs c = true := by
            apply hasLang_of_tfOf_ne_nil
            intro hnil
            rw [hnil] at hti
            simp at hti
          have ht2mem : t2 ∈ tfOf gs t1.toCode := List.get?_mem htj
          have hmiss : hasEdge gs c t2.toCode = false := by
            simpa using he
          have inv' := pivotInv_add K c t1.toCode gs t1 t2 hlang ht2mem hmiss
            inv
          apply ih _ i (j + 1) true inv'
          · intro t1' ht1'
            rw [tfOf_addBoth_self gs c t2.toCode (Trans.compT t1 t2) hlang,
              List.get?_append hilen, hti] at ht1'
            cases ht1'
            exact le_trans hjlen (tfOf_addBoth_len_ge gs c t2.toCode _ _)
          · have hlt := missing_lt gs c t1.toCode t1 t2 hlang ht2mem hmiss
            have h2 : missingCount
                (addTT (addTF gs c (Trans.compT t1 t2)) t2.toCode
                  (Trans.compT t1 t2)) c * K * K
                < missingCount gs c * K * K :=
              (Nat.mul_lt_mul_right hK0).mpr
                ((Nat.mul_lt_mul_right hK0).mpr hlt)
            have htfeq : tfOf (addTT (addTF gs c (Trans.compT t1 t2))
                t2.toCode (Trans.compT t1 t2)) c
                = tfOf gs c ++ [Trans.compT t1 t2] :=
              tfOf_addBoth_self gs c t2.toCode (Trans.compT t1 t2) hlang
            unfold passMeasure at hm ⊢
            omega

/-! ### What a scan does: growth, flag semantics, and the fixpoint -/

/-- The state only grows: every `translations_from` list of `gs'` extends
that of `gs`. -/
def gsLE (gs gs' : GS) : Prop :=
  ∀ d, (tfOf gs d).IsPrefix (tfOf gs' d)

theorem gsLE_refl (gs : GS) : gsLE gs gs := fun _ => List.prefix_refl _

theorem gsLE_trans {gs1 gs2 gs3 : GS} (h1 : gsLE gs1 gs2)
    (h2 : gsLE gs2 gs3) : gsLE gs1 gs3 :=
  fun d => List.IsPrefix.trans (h1 d) (h2 d)

theorem gsLE_addBoth (gs : GS) (c e : Str) (t : Trans) :
    gsLE gs (addTT (addTF gs c t) e t) := by
  intro d
  rw [tfOf_addTT]
  by_cases hd : d = c
  · subst hd
    by_cases hl : hasLang gs d
    · rw [tfOf_addTF_self gs d t hl]
      exact List.prefix_append _ _
    · rw [addTF_not_hasLang gs d t (by simpa using hl)]
  · rw [tfOf_addTF_ne gs c t d hd]

theorem hasEdge_mono_of_gsLE {gs gs' : GS} (h : gsLE gs gs') (c d : Str)
    (he : hasEdge gs c d = true) : hasEdge gs' c d = true := by
  rw [hasEdge_iff] at he ⊢
  obtain ⟨t, hmem, htc⟩ := he
  exact ⟨t, (h c).subset hmem, htc⟩

theorem mem_tfOf_of_gsLE {gs gs' : GS} (h : gsLE gs gs') {c : Str}
    {t : Trans} (hm : t ∈ tfOf gs c) : t ∈ tfOf gs' c :=
  (h c).subset hm

theorem codesOf_addBoth (gs : GS) (c e : Str) (t : Trans) :
    codesOf (addTT (addTF gs c t) e t) = codesOf gs := by
  rw [codesOf_addTT, codesOf_addTF]

/-- Scan result: growth and code preservation. -/
theorem pivotPass_gsLE (c : Str) :
    ∀ (fuel : Nat) (gs : GS) (i j : Nat) (a : Bool) (gs' : GS) (a' : Bool),
      pivotPass c fuel gs i j a = some (gs', a') →
      gsLE gs gs' ∧ codesOf gs' = codesOf gs := by
  intro fuel
  induction fuel with
  | zero => intro gs i j a gs' a' h; exact Option.noConfusion h
  | succ fuel ih =>
    intro gs i j a gs' a' h
    unfold pivotPass at h
    cases hti : (tfOf gs c).get? i with
    | none =>
      rw [hti] at h
      dsimp only at h
      cases h
      exact ⟨gsLE_refl gs, rfl⟩
    | some t1 =>
      rw [hti] at h
      dsimp only at h
      cases htj : (tfOf gs t1.toCode).get? j with
      | none =>
        rw [htj] at h
        exact ih gs (i + 1) 0 a gs' a' h
      | some t2 =>
        rw [htj] at h
        dsimp only at h
        by_cases he : hasEdge gs c t2.toCode = true
        · rw [if_pos he] at h
          exact ih gs i (j + 1) a gs' a' h
        · rw [if_neg he] at h
          have hstep := gsLE_addBoth gs c t2.toCode (Trans.compT t1 t2)
          have hc := codesOf_addBoth gs c t2.toCode (Trans.compT t1 t2)
          obtain ⟨h1, h2⟩ := ih _ i (j + 1) true gs' a' h
          exact ⟨gsLE_trans hstep h1, h2.trans hc⟩

/-- Scan result: either nothing happened (state unchanged, flag passed
through) or at least one composite was added (flag `true`, missing count
strictly smaller). -/
theorem pivotPass_flag (c : Str) :
    ∀ (fuel : Nat) (gs : GS) (i j : Nat) (a : Bool) (gs' : GS) (a' : Bool),
      pivotPass c fuel gs i j a = some (gs', a') →
      (a' = a ∧ gs' = gs)
        ∨ (a' = true ∧ missingCount gs' c < missingCount gs c) := by
  intro fuel
  induction fuel with
  | zero => intro gs i j a gs' a' h; exact Option.noConfusion h
  | succ fuel ih =>
    intro gs i j a gs' a' h
    unfold pivotPass at h
    cases hti : (tfOf gs c).get? i with
    | none =>
      rw [hti] at h
      dsimp only at h
      cases h
      exact Or.inl ⟨rfl, rfl⟩
    | some t1 =>
      rw [hti] at h
      dsimp only at h
      cases htj : (tfOf gs t1.toCode).get? j with
      | none =>
        rw [htj] at h
        exact ih gs (i + 1) 0 a gs' a' h
      | some t2 =>
        rw [htj] at h
        dsimp only at h
        by_cases he : hasEdge gs c t2.toCode = true
        · rw [if_pos he] at h
          exact ih gs i (j + 1) a gs' a' h
        · rw [if_neg he] at h
          have hlang : hasLang gs c = true := by
            apply hasLang_of_tfOf_ne_nil
            intro hnil
            rw [hnil] at hti
            simp at hti
          have hlt := missing_lt gs c t1.toCode t1 t2 hlang
            (List.get?_mem htj) (by simpa using he)
          rcases ih _ i (j + 1) true gs' a' h with ⟨ha', hgs'⟩ | ⟨ha', hm⟩
          · exact Or.inr ⟨ha', hgs' ▸ hlt⟩
          · exact Or.inr ⟨ha', lt_trans hm hlt⟩

/-- A clean scan (flag `false` in, flag `false` out) certifies the
fixpoint: from position `(i, j)` on, every pair of consecutive edges
already has a corresponding direct lookup. -/
theorem pivotPass_fixpoint (c : Str) :
    ∀ (fuel : Nat) (gs : GS) (i j : Nat) (gs' : GS),
      pivotPass c fuel gs i j false = some (gs', false) →
      ∀ i' j' t1 t2, i ≤ i' → (i' = i → j ≤ j') →
        (tfOf gs c).get? i' = some t1 →
        (tfOf gs t1.toCode).get? j' = some t2 →
        hasEdge gs c t2.toCode = true := by
  intro fuel
  induction fuel with
  | zero => intro gs i j gs' h; exact Option.noConfusion h
  | succ fuel ih =>
    intro gs i j gs' h
    unfold pivotPass at h
    cases hti : (tfOf gs c).get? i with
    | none =>
      rw [hti] at h
      intro i' j' t1 t2 hii' _ hti' _
      exfalso
      have hlen : (tfOf gs c).length ≤ i := by
        by_contra hcon
        rw [List.get?_eq_get (Nat.lt_of_not_le hcon)] at hti
        exact Option.noConfusion hti
      rw [List.get?_eq_none.mpr (le_trans hlen hii')] at hti'
      exact Option.noConfusion hti'
    | some t1 =>
      rw [hti] at h
      dsimp only at h
      cases htj : (tfOf gs t1.toCode).get? j with
      | none =>
        rw [htj] at h
        intro i' j' u1 u2 hii' hjj' hti' htj'
        rcases Nat.lt_or_ge i i' with hlt | hge
        · exact ih gs (i + 1) 0 gs' h i' j' u1 u2 hlt
            (fun _ => Nat.zero_le _) hti' htj'
        · have : i' = i := Nat.le_antisymm hge hii'
          subst this
          rw [hti'] at hti
          cases hti
          exfalso
          have hlen : (tfOf gs t1.toCode).length ≤ j := by
            by_contra hcon
            rw [List.get?_eq_get (Nat.lt_of_not_le hcon)] at htj
            exact Option.noConfusion htj
          rw [List.get?_eq_none.mpr (le_trans hlen (hjj' rfl))] at htj'
          exact Option.noConfusion htj'
      | some t2 =>
        rw [htj] at h
        dsimp only at h
        by_cases he : hasEdge gs c t2.toCode = true
        · rw [if_pos he] at h
          intro i' j' u1 u2 hii' hjj' hti' htj'
          rcases Nat.lt_or_ge i i' with hlt | hge
          · exact ih gs i (j + 1) gs' h i' j' u1 u2 hii'
              (fun heq => absurd heq (Nat.ne_of_lt hlt).symm) hti' htj'
          · have hieq : i' = i := Nat.le_antisymm hge hii'
            subst hieq
            rw [hti'] at hti
            cases hti
            rcases Nat.lt_or_ge j j' with hjlt | hjge
            · exact ih gs i' (j + 1) gs' h i' j' t1 u2 (le_refl _)
                (fun _ => hjlt) hti' htj'
            · have : j' = j := Nat.le_antisymm hjge (hjj' rfl)
              subst this
              rw [htj'] at htj
              cases htj
              exact he
        · rw [if_neg he] at h
          exfalso
          rcases pivotPass_flag c fuel _ i (j + 1) true gs' false h with
            ⟨ha', _⟩ | ⟨ha', _⟩ <;> exact Bool.noConfusion ha'

theorem tfOf_length_le_totalTF (gs : GS) (d : Str) :
    (tfOf gs d).length ≤ totalTF gs := by
  unfold tfOf totalTF
  cases hf : findLang gs d with
  | none => exact Nat.zero_le _
  | some l =>
    dsimp only [Option.map_some', Option.getD_some]
    exact List.single_le_sum (fun x _ => Nat.zero_le x) _
      (List.mem_map.mpr ⟨l, List.mem_of_find?_eq_some hf, rfl⟩)

/-- The `while keep_adding` loop with more fuel than the missing count:
the result extends the input state, keeps the same codes, and satisfies
the pivot fixpoint for language `c`. -/
theorem pivotWhile_spec (c : Str) :
    ∀ (fuel : Nat) (gs : GS), missingCount gs c < fuel →
      gsLE gs (pivotWhile c fuel gs)
      ∧ codesOf (pivotWhile c fuel gs) = codesOf gs
      ∧ (∀ i j t1 t2,
          (tfOf (pivotWhile c fuel gs) c).get? i = some t1 →
          (tfOf (pivotWhile c fuel gs) t1.toCode).get? j = some t2 →
          hasEdge (pivotWhile c fuel gs) c t2.toCode = true) := by
  intro fuel
  induction fuel with
  | zero => intro gs hm; exact absurd hm (Nat.not_lt_zero _)
  | succ fuel ih =>
    intro gs hm
    have hinv : pivotInv (totalTF gs + missingCount gs c + 2) c gs := by
      intro d
      have := tfOf_length_le_totalTF gs d
      omega
    have hmeas : passMeasure (totalTF gs + missingCount gs c + 2) c gs 0 0
        < pivotFuel gs c := by
      unfold passMeasure pivotFuel
      dsimp only
      rw [Nat.sub_zero]
      omega
    have hsome : (pivotPass c (pivotFuel gs c) gs 0 0 false).isSome = true :=
      pivotPass_isSome c (totalTF gs + missingCount gs c + 2)
        (pivotFuel gs c) gs 0 0 false hinv (fun _ _ => Nat.zero_le _) hmeas
    obtain ⟨⟨gs', a'⟩, hp⟩ := Option.isSome_iff_exists.mp hsome
    cases a' with
    | true =>
      have hwhile : pivotWhile c (fuel + 1) gs = pivotWhile c fuel gs' := by
        simp only [pivotWhile]
        rw [hp]
      have hlt : missingCount gs' c < missingCount gs c := by
        rcases pivotPass_flag c _ gs 0 0 false gs' true hp with
          ⟨ha', _⟩ | ⟨_, h2⟩
        · exact Bool.noConfusion ha'
        · exact h2
      have hfuel' : missingCount gs' c < fuel := by omega
      obtain ⟨hle, hcodes, hfix⟩ := ih gs' hfuel'
      obtain ⟨hle0, hcodes0⟩ := pivotPass_gsLE c _ gs 0 0 false gs' true hp
      rw [hwhile]
      exact ⟨gsLE_trans hle0 hle, hcodes.trans hcodes0, hfix⟩
    | false =>
      have hwhile : pivotWhile c (fuel + 1) gs = gs' := by
        simp only [pivotWhile]
        rw [hp]
      have hgs' : gs' = gs := by
        rcases pivotPass_flag c _ gs 0 0 false gs' false hp with
          ⟨_, h2⟩ | ⟨ha', _⟩
        · exact h2
        · exact Bool.noConfusion ha'
      rw [hgs'] at hwhile hp
      rw [hwhile]
      refine ⟨gsLE_refl gs, rfl, ?_⟩
      intro i j t1 t2 hti htj
      exact pivotPass_fixpoint c _ gs 0 0 gs hp i j t1 t2 (Nat.zero_le _)
        (fun _ => Nat.zero_le _) hti htj

/-! ### Reachability over direct package edges -/

/-- One installed package provides a direct edge between two codes. -/
def DirectStep (packages : List PkgD) (a b : Str) : Prop :=
  ∃ p ∈ packages, p.from_code = a ∧ p.to_code = b

/-- A path of direct package edges, through any number of intermediate
languages (including the empty path). -/
def ReachesDirect (packages : List PkgD) : Str → Str → Prop :=
  Relation.ReflTransGen (DirectStep packages)

/-- Every package's direct edge is present on its source language. -/
def DirectsIn (packages : List PkgD) (gs : GS) : Prop :=
  ∀ p ∈ packages,
    Trans.pkgT p.from_code p.to_code p ∈ tfOf gs p.from_code

/-- Every language carries its identity edge. -/
def IdsIn (gs : GS) : Prop :=
  ∀ c, hasLang gs c = true → Trans.idT c ∈ tfOf gs c

/-- After the `while keep_adding` loop for `c`, every destination reachable
from `c` through direct package edges has an edge from `c`. -/
theorem pivotWhile_reaches (packages : List PkgD) (c : Str) (gs : GS)
    (hd : DirectsIn packages gs) (hid : IdsIn gs)
    (hlang : hasLang gs c = true) :
    ∀ d, ReachesDirect packages c d →
      hasEdge (pivotWhile c (missingCount gs c + 1) gs) c d = true := by
  obtain ⟨hle, hcodes, hfix⟩ :=
    pivotWhile_spec c (missingCount gs c + 1) gs (Nat.lt_succ_self _)
  intro d hreach
  induction hreach with
  | refl =>
    rw [hasEdge_iff]
    exact ⟨Trans.idT c, mem_tfOf_of_gsLE hle (hid c hlang), rfl⟩
  | tail hab hbd ih =>
    obtain ⟨p, hp, hpf, hpt⟩ := hbd
    rw [hasEdge_iff] at ih
    obtain ⟨t1, ht1mem, ht1code⟩ := ih
    have ht2mem : Trans.pkgT p.from_code p.to_code p
        ∈ tfOf (pivotWhile c (missingCount gs c + 1) gs) t1.toCode := by
      rw [ht1code, ← hpf]
      exact mem_tfOf_of_gsLE hle (hd p hp)
    obtain ⟨i, hi⟩ := List.mem_iff_get?.mp ht1mem
    obtain ⟨j, hj⟩ := List.mem_iff_get?.mp ht2mem
    have := hfix i j t1 _ hi hj
    rw [show (Trans.pkgT p.from_code p.to_code p).toCode = p.to_code from rfl,
      hpt] at this
    exact this

/-- The pivot pass over all languages: the result extends the input, keeps
its codes, and realizes every direct-path-reachable destination as an edge
of its source language. -/
theorem pivotFold_spec (packages : List PkgD) :
    ∀ (cs : List Str) (gs : GS), DirectsIn packages gs → IdsIn gs →
      gsLE gs (cs.foldl (fun g c => pivotWhile c (missingCount g c + 1) g) gs)
      ∧ codesOf (cs.foldl
          (fun g c => pivotWhile c (missingCount g c + 1) g) gs) = codesOf gs
      ∧ (∀ c ∈ cs, hasLang gs c = true → ∀ d, ReachesDirect packages c d →
          hasEdge (cs.foldl
            (fun g c => pivotWhile c (missingCount g c + 1) g) gs) c d
            = true) := by
  intro cs
  induction cs with
  | nil =>
    intro gs _ _
    exact ⟨gsLE_refl gs, rfl, fun c hc => absurd hc (List.not_mem_nil c)⟩
  | cons c cs ih =>
    intro gs hd hid
    obtain ⟨hle1, hcodes1, _⟩ :=
      pivotWhile_spec c (missingCount gs c + 1) gs (Nat.lt_succ_self _)
    have hd1 : DirectsIn packages
        (pivotWhile c (missingCount gs c + 1) gs) :=
      fun p hp => mem_tfOf_of_gsLE hle1 (hd p hp)
    have hid1 : IdsIn (pivotWhile c (missingCount gs c + 1) gs) := by
      intro c' hc'
      apply mem_tfOf_of_gsLE hle1
      apply hid
      rw [hasLang_iff] at hc' ⊢
      rw [hcodes1] at hc'
      exact hc'
    obtain ⟨hle2, hcodes2, hprop2⟩ :=
      ih (pivotWhile c (missingCount gs c + 1) gs) hd1 hid1
    refine ⟨gsLE_trans hle1 hle2, ?_, ?_⟩
    · rw [List.foldl_cons, hcodes2, hcodes1]
    · intro c' hc' hlang' d hreach
      rcases List.mem_cons.mp hc' with hceq | hmem
      · subst hceq
        rw [List.foldl_cons]
        apply hasEdge_mono_of_gsLE hle2
        exact pivotWhile_reaches packages c' gs hd hid hlang' d hreach
      · rw [List.foldl_cons]
        apply hprop2 c' hmem _ d hreach
        rw [hasLang_iff, hcodes1, ← hasLang_iff]
        exact hlang'

/-! ### The loading and identity passes -/

theorem findLang_append (gs1 gs2 : GS) (c : Str) :
    findLang (gs1 ++ gs2) c = (findLang gs1 c).or (findLang gs2 c) := by
  unfold findLang
  exact List.find?_append

theorem codesOf_append (gs1 gs2 : GS) :
    codesOf (gs1 ++ gs2) = codesOf gs1 ++ codesOf gs2 := by
  unfold codesOf
  exact List.map_append _ _ _

theorem gsLE_append (gs ls : GS) : gsLE gs (gs ++ ls) := by
  intro d
  unfold tfOf
  rw [findLang_append]
  cases hf : findLang gs d with
  | some l => rw [Option.or_some]
  | none => exact List.nil_prefix

theorem tfOf_append_right (gs : GS) (l : LangS) (c : Str)
    (h : hasLang gs c = false) :
    tfOf (gs ++ [l]) c = if l.code = c then l.translations_from else [] := by
  unfold tfOf
  rw [findLang_append]
  unfold hasLang at h
  cases hf : findLang gs c with
  | some x => rw [hf] at h; simp at h
  | none =>
    rw [Option.none_or]
    unfold findLang
    by_cases hc : l.code = c
    · rw [List.find?_cons_of_pos _ (by simp [hc]), if_pos hc]
      rfl
    · rw [List.find?_cons_of_neg _ (by simp [hc]), if_neg hc]
      rfl

theorem hasLang_mono_append (gs ls : GS) (c : Str)
    (h : hasLang gs c = true) : hasLang (gs ++ ls) c = true := by
  rw [hasLang_iff, codesOf_append]
  exact List.mem_append_left _ ((hasLang_iff gs c).mp h)

theorem hasLang_append_self (gs : GS) (l : LangS) :
    hasLang (gs ++ [l]) l.code = true := by
  rw [hasLang_iff, codesOf_append]
  exact List.mem_append_right _ (by simp [codesOf])

theorem hasLang_addTF (gs : GS) (e : Str) (t : Trans) (c : Str) :
    hasLang (addTF gs e t) c = hasLang gs c := by
  rw [Bool.eq_iff_iff, hasLang_iff, hasLang_iff, codesOf_addTF]

theorem hasLang_addTT (gs : GS) (e : Str) (t : Trans) (c : Str) :
    hasLang (addTT gs e t) c = hasLang gs c := by
  rw [Bool.eq_iff_iff, hasLang_iff, hasLang_iff, codesOf_addTT]

theorem ensure_gsLE (gs : GS) (b : Bool) (l : LangS) :
    gsLE gs (if b = true then gs else gs ++ [l]) := by
  cases b
  · rw [if_neg (by simp)]
    exact gsLE_append gs [l]
  · rw [if_pos rfl]
    exact gsLE_refl gs

theorem ensure_hasLang_self (gs : GS) (c name : Str) :
    hasLang (if hasLang gs c = true then gs
      else gs ++ [LangS.mk c name [] []]) c = true := by
  cases h : hasLang gs c
  · rw [if_neg (by simp [h])]
    exact hasLang_append_self gs (LangS.mk c name [] [])
  · rw [if_pos rfl]
    exact h

theorem ensure_hasLang_mono (gs : GS) (b : Bool) (l : LangS) (c : Str)
    (h : hasLang gs c = true) :
    hasLang (if b = true then gs else gs ++ [l]) c = true := by
  cases b
  · rw [if_neg (by simp)]
    exact hasLang_mono_append gs [l] c h
  · rw [if_pos rfl]
    exact h

theorem loadPackage_langs (gs : GS) (pkg : PkgD) :
    hasLang (loadPackage gs pkg) pkg.from_code = true
      ∧ hasLang (loadPackage gs pkg) pkg.to_code = true := by
  unfold loadPackage
  dsimp only
  rw [hasLang_addTT, hasLang_addTF, hasLang_addTT, hasLang_addTF]
  constructor
  · exact ensure_hasLang_mono _ _ _ _ (ensure_hasLang_self gs _ _)
  · exact ensure_hasLang_self _ _ _

theorem loadPackage_gsLE (gs : GS) (pkg : PkgD) :
    gsLE gs (loadPackage gs pkg) := by
  unfold loadPackage
  dsimp only
  apply gsLE_trans (ensure_gsLE gs _ _)
  apply gsLE_trans (ensure_gsLE _ _ _)
  exact gsLE_addBoth _ _ _ _

theorem loadPackage_edge (gs : GS) (pkg : PkgD) :
    Trans.pkgT pkg.from_code pkg.to_code pkg
      ∈ tfOf (loadPackage gs pkg) pkg.from_code := by
  unfold loadPackage
  dsimp only
  rw [tfOf_addTT, tfOf_addTF_self _ _ _
    (ensure_hasLang_mono _ _ _ _ (ensure_hasLang_self gs _ _))]
  exact List.mem_append_right _ (List.mem_singleton_self _)

/-- Loading a package list: the result extends any starting state and
contains every package's direct edge. -/
theorem loadPackages_fold (packages : List PkgD) :
    ∀ gs : GS,
      gsLE gs (packages.foldl loadPackage gs)
      ∧ DirectsIn packages (packages.foldl loadPackage gs) := by
  induction packages with
  | nil =>
    intro gs
    exact ⟨gsLE_refl gs, fun p hp => absurd hp (List.not_mem_nil p)⟩
  | cons p ps ih =>
    intro gs
    rw [List.foldl_cons]
    obtain ⟨hle, hdir⟩ := ih (loadPackage gs p)
    refine ⟨gsLE_trans (loadPackage_gsLE gs p) hle, ?_⟩
    intro q hq
    rcases List.mem_cons.mp hq with hqe | hqm
    · subst hqe
      exact mem_tfOf_of_gsLE hle (loadPackage_edge gs q)
    · exact hdir q hqm

theorem loadPackages_DirectsIn (packages : List PkgD) :
    DirectsIn packages (loadPackages packages) :=
  (loadPackages_fold packages []).2

/-! #### The identity pass -/

theorem codesOf_addIdentities (gs : GS) :
    codesOf (addIdentities gs) = codesOf gs := by
  unfold addIdentities
  exact codesOf_map
    (fun l => { l with
      translations_from := l.translations_from ++ [Trans.idT l.code],
      translations_to := l.translations_to ++ [Trans.idT l.code] })
    (fun l => rfl) gs

theorem tfOf_addIdentities (gs : GS) (c : Str) (h : hasLang gs c = true) :
    tfOf (addIdentities gs) c = tfOf gs c ++ [Trans.idT c] := by
  unfold tfOf addIdentities
  rw [findLang_map
    (fun l => { l with
      translations_from := l.translations_from ++ [Trans.idT l.code],
      translations_to := l.translations_to ++ [Trans.idT l.code] })
    (fun l => rfl)]
  unfold hasLang at h
  cases hf : findLang gs c with
  | none => rw [hf] at h; simp at h
  | some l =>
    have hc : l.code = c := by
      have := List.find?_some hf
      simpa using this
    dsimp only [Option.map_some']
    rw [hc]
    rfl

theorem tfOf_eq_nil_of_not_hasLang (gs : GS) (c : Str)
    (h : hasLang gs c = false) : tfOf gs c = [] := by
  unfold tfOf
  unfold hasLang at h
  cases hf : findLang gs c with
  | none => rfl
  | some l => rw [hf] at h; simp at h

theorem gsLE_addIdentities (gs : GS) : gsLE gs (addIdentities gs) := by
  intro d
  by_cases h : hasLang gs d = true
  · rw [tfOf_addIdentities gs d h]
    exact List.prefix_append _ _
  · rw [tfOf_eq_nil_of_not_hasLang gs d (by simpa using h)]
    exact List.nil_prefix

theorem IdsIn_addIdentities (gs : GS) : IdsIn (addIdentities gs) := by
  intro c hc
  rw [hasLang_iff, codesOf_addIdentities, ← hasLang_iff] at hc
  rw [tfOf_addIdentities gs c hc]
  exact List.mem_append_right _ (List.mem_singleton_self _)

/-! ### Uniqueness of codes and the language-object view -/

theorem ensure_nodup (gs : GS) (c name : Str) (h : (codesOf gs).Nodup) :
    (codesOf (if hasLang gs c = true then gs
      else gs ++ [LangS.mk c name [] []])).Nodup := by
  cases hl : hasLang gs c
  · rw [if_neg (by simp [hl]), codesOf_append]
    rw [List.nodup_append]
    refine ⟨h, by simp [codesOf], ?_⟩
    intro a ha hmem
    have : a = c := by
      simp only [codesOf, List.map_cons, List.map_nil,
        List.mem_singleton] at hmem
      exact hmem
    subst this
    have : hasLang gs a = true := (hasLang_iff gs a).mpr ha
    rw [hl] at this
    exact Bool.noConfusion this
  · rw [if_pos rfl]
    exact h

theorem loadPackage_nodup (gs : GS) (p : PkgD)
    (h : (codesOf gs).Nodup) : (codesOf (loadPackage gs p)).Nodup := by
  unfold loadPackage
  dsimp only
  rw [codesOf_addTT, codesOf_addTF]
  exact ensure_nodup _ _ _ (ensure_nodup gs _ _ h)

theorem loadPackages_nodup (packages : List PkgD) :
    (codesOf (loadPackages packages)).Nodup := by
  unfold loadPackages
  have : ∀ gs : GS, (codesOf gs).Nodup →
      (codesOf (packages.foldl loadPackage gs)).Nodup := by
    induction packages with
    | nil => intro gs h; exact h
    | cons p ps ih =>
      intro gs h
      rw [List.foldl_cons]
      exact ih (loadPackage gs p) (loadPackage_nodup gs p h)
  exact this [] (by simp [codesOf])

/-- With unique codes, a member language IS what `findLang` returns for its
code; hence its `translations_from` is the state's. -/
theorem findLang_eq_of_mem (gs : GS) (L : LangS) (hmem : L ∈ gs)
    (hnodup : (codesOf gs).Nodup) : findLang gs L.code = some L := by
  induction gs with
  | nil => exact absurd hmem (List.not_mem_nil L)
  | cons l ls ih =>
    rcases List.mem_cons.mp hmem with heq | hmem'
    · subst heq
      unfold findLang
      rw [List.find?_cons_of_pos _ (by simp)]
    · have hnodup' : (codesOf ls).Nodup := by
        simp only [codesOf, List.map_cons, List.nodup_cons] at hnodup
        exact hnodup.2
      have hne : l.code ≠ L.code := by
        simp only [codesOf, List.map_cons, List.nodup_cons] at hnodup
        intro hcon
        exact hnodup.1 (hcon ▸ List.mem_map.mpr ⟨L, hmem', rfl⟩)
      unfold findLang
      rw [List.find?_cons_of_neg _ (by simp [hne])]
      exact ih hmem' hnodup'

theorem tfOf_of_mem (gs : GS) (L : LangS) (hmem : L ∈ gs)
    (hnodup : (codesOf gs).Nodup) :
    tfOf gs L.code = L.translations_from := by
  unfold tfOf
  rw [findLang_eq_of_mem gs L hmem hnodup]
  rfl

/-- `Language.get_translation` succeeds exactly when the state has an edge
between the two codes. -/
theorem get_translation_isSome (gs : GS) (L M : LangS) (hmem : L ∈ gs)
    (hnodup : (codesOf gs).Nodup) :
    (get_translation L M).isSome = hasEdge gs L.code M.code := by
  unfold get_translation hasEdge
  rw [tfOf_of_mem gs L hmem hnodup]

/-- Presentation reordering keeps exactly the same language objects. -/
theorem mem_reorderLanguages (l : GS) (x : LangS) :
    x ∈ reorderLanguages l ↔ x ∈ l := by
  unfold reorderLanguages
  cases hidx : l.findIdx? (fun la => la.code = "en".toList) with
  | none => exact List.mem_mergeSort
  | some i =>
    have hlt : i < l.length :=
      (List.findIdx?_eq_some_iff_findIdx_eq.mp hidx).1
    dsimp only
    rw [List.get?_eq_getElem?, List.getElem?_eq_getElem hlt]
    dsimp only
    rw [List.mem_cons, List.mem_mergeSort, List.mem_append]
    conv_rhs => rw [← List.take_append_drop i l,
      List.drop_eq_getElem_cons hlt]
    rw [List.mem_append, List.mem_cons]
    tauto

/-! ### The main graph theorem, at the state level -/

/-- `buildGraph`: the built state carries all direct edges and identities,
has unique codes, and has an edge for every direct-path-reachable pair. -/
theorem buildGraph_spec (packages : List PkgD) :
    (codesOf (buildGraph packages)).Nodup
    ∧ (∀ c ∈ codesOf (buildGraph packages),
        ∀ d, ReachesDirect packages c d →
          hasEdge (buildGraph packages) c d = true) := by
  unfold buildGraph pivotClosure
  have hdir0 : DirectsIn packages (addIdentities (loadPackages packages)) :=
    fun p hp => mem_tfOf_of_gsLE (gsLE_addIdentities _)
      (loadPackages_DirectsIn packages p hp)
  have hid0 : IdsIn (addIdentities (loadPackages packages)) :=
    IdsIn_addIdentities _
  obtain ⟨hle, hcodes, hprop⟩ := pivotFold_spec packages
    (codesOf (addIdentities (loadPackages packages)))
    (addIdentities (loadPackages packages)) hdir0 hid0
  have hnodup0 : (codesOf (addIdentities (loadPackages packages))).Nodup := by
    rw [codesOf_addIdentities]
    exact loadPackages_nodup packages
  constructor
  · rw [hcodes]
    exact hnodup0
  · intro c hc d hreach
    rw [hcodes] at hc
    exact hprop c hc ((hasLang_iff _ c).mpr hc) d hreach

/-- `buildGraph` extends the loaded-plus-identities state and keeps its
codes. -/
theorem buildGraph_extends (packages : List PkgD) :
    gsLE (addIdentities (loadPackages packages)) (buildGraph packages)
    ∧ codesOf (buildGraph packages)
        = codesOf (addIdentities (loadPackages packages)) := by
  unfold buildGraph pivotClosure
  have hdir0 : DirectsIn packages (addIdentities (loadPackages packages)) :=
    fun p hp => mem_tfOf_of_gsLE (gsLE_addIdentities _)
      (loadPackages_DirectsIn packages p hp)
  obtain ⟨hle, hcodes, _⟩ := pivotFold_spec packages
    (codesOf (addIdentities (loadPackages packages)))
    (addIdentities (loadPackages packages)) hdir0 (IdsIn_addIdentities _)
  exact ⟨hle, hcodes⟩

/-- Every edge loaded onto a language is the direct edge of one of the
packages, with that language as its source. -/
theorem loadPackages_shape (packages : List PkgD) :
    ∀ c t, t ∈ tfOf (loadPackages packages) c →
      ∃ p ∈ packages, t = Trans.pkgT p.from_code p.to_code p
        ∧ p.from_code = c := by
  unfold loadPackages
  have step : ∀ (gs : GS) (q : PkgD) (c : Str) (t : Trans),
      t ∈ tfOf (loadPackage gs q) c →
      t ∈ tfOf gs c
        ∨ (t = Trans.pkgT q.from_code q.to_code q ∧ q.from_code = c) := by
    intro gs q c t ht
    unfold loadPackage at ht
    dsimp only at ht
    rw [tfOf_addTT] at ht
    have hens : ∀ (g : GS) (b : Bool) (l : LangS),
        l.translations_from = [] →
        tfOf (if b = true then g else g ++ [l]) c = tfOf g c
          ∨ tfOf (if b = true then g else g ++ [l]) c = [] := by
      intro g b l hnil
      cases b
      · rw [if_neg (by simp)]
        cases hl : hasLang g c
        · rw [tfOf_append_right g l c hl]
          right
          split
          · exact hnil
          · rfl
        · left
          unfold tfOf
          rw [findLang_append]
          unfold hasLang at hl
          cases hf : findLang g c with
          | none => rw [hf] at hl; simp at hl
          | some x => rw [Option.or_some]
      · rw [if_pos rfl]
        left
        rfl
    by_cases hc : c = q.from_code
    · subst hc
      by_cases hl2 : hasLang (if hasLang (if hasLang gs q.from_code = true
            then gs
          else gs ++ [LangS.mk q.from_code q.from_name [] []]) q.to_code
            = true then
            (if hasLang gs q.from_code = true then gs
              else gs ++ [LangS.mk q.from_code q.from_name [] []])
          else (if hasLang gs q.from_code = true then gs
              else gs ++ [LangS.mk q.from_code q.from_name [] []])
            ++ [LangS.mk q.to_code q.to_name [] []]) q.from_code = true
      · rw [tfOf_addTF_self _ _ _ hl2] at ht
        rcases List.mem_append.mp ht with hin | hin
        · rcases hens (if hasLang gs q.from_code = true then gs
              else gs ++ [LangS.mk q.from_code q.from_name [] []])
            _ (LangS.mk q.to_code q.to_name [] []) rfl with he | he
          · rcases hens gs (hasLang gs q.from_code)
              (LangS.mk q.from_code q.from_name [] [])
              rfl with he2 | he2
            · rw [he, he2] at hin
              exact Or.inl hin
            · rw [he, he2] at hin
              exact absurd hin (List.not_mem_nil t)
          · rw [he] at hin
            exact absurd hin (List.not_mem_nil t)
        · rw [List.mem_singleton] at hin
          exact Or.inr ⟨hin, rfl⟩
      · rw [addTF_not_hasLang _ _ _ (by simpa using hl2)] at ht
        rcases hens (if hasLang gs q.from_code = true then gs
            else gs ++ [LangS.mk q.from_code q.from_name [] []])
          _ (LangS.mk q.to_code q.to_name [] []) rfl with he | he
        · rcases hens gs (hasLang gs q.from_code)
            (LangS.mk q.from_code q.from_name [] [])
            rfl with he2 | he2
          · rw [he, he2] at ht
            exact Or.inl ht
          · rw [he, he2] at ht
            exact absurd ht (List.not_mem_nil t)
        · rw [he] at ht
          exact absurd ht (List.not_mem_nil t)
    · rw [tfOf_addTF_ne _ _ _ _ (fun h => hc h)] at ht
      rcases hens (if hasLang gs q.from_code = true then gs
          else gs ++ [LangS.mk q.from_code q.from_name [] []])
        _ (LangS.mk q.to_code q.to_name [] []) rfl with he | he
      · rcases hens gs (hasLang gs q.from_code)
          (LangS.mk q.from_code q.from_name [] []) rfl with he2 | he2
        · rw [he, he2] at ht
          exact Or.inl ht
        · rw [he, he2] at ht
          exact absurd ht (List.not_mem_nil t)
      · rw [he] at ht
        exact absurd ht (List.not_mem_nil t)
  have main : ∀ (pkgs : List PkgD) (gs : GS),
      (∀ c t, t ∈ tfOf gs c →
        ∃ p ∈ packages, t = Trans.pkgT p.from_code p.to_code p
          ∧ p.from_code = c) →
      (∀ q ∈ pkgs, q ∈ packages) →
      ∀ c t, t ∈ tfOf (pkgs.foldl loadPackage gs) c →
        ∃ p ∈ packages, t = Trans.pkgT p.from_code p.to_code p
          ∧ p.from_code = c := by
    intro pkgs
    induction pkgs with
    | nil => intro gs hinv _ c t ht; exact hinv c t ht
    | cons q qs ih =>
      intro gs hinv hsub c t ht
      rw [List.foldl_cons] at ht
      refine ih (loadPackage gs q) ?_
        (fun r hr => hsub r (List.mem_cons_of_mem q hr)) c t ht
      intro c' t' ht'
      rcases step gs q c' t' ht' with hin | ⟨heq, hfc⟩
      · exact hinv c' t' hin
      · exact ⟨q, hsub q (List.mem_cons_self q qs), heq, hfc⟩
  intro c t ht
  refine main packages [] ?_ (fun q hq => hq) c t ht
  intro c' t' ht'
  unfold tfOf findLang at ht'
  simp at ht'

/-! ## Semantics of graph edges

`transSem` assigns each edge its `hypotheses` function.  The external
per-paragraph pipeline `apply_packaged_translation` is an oracle indexed by
the package.  A package edge is `CachedTranslation(PackageTranslation(p))`;
on a fresh build every cache starts empty, and because the underlying
translation is a pure function a cache hit always returns exactly what
recomputation would, so the empty-cache call semantics is the general call
semantics. -/

def transSem (oracle : PkgD → Str → Nat → List Hyp) : Trans → HypFn
  | .pkgT _ _ p => fun s n =>
      (cachedHypotheses (packageTranslationHypotheses (oracle p)) [] s n).hyps
  | .idT _ => identityHypotheses
  | .compT t1 t2 => fun s n =>
      compositeHypotheses (transSem oracle t1) (transSem oracle t2) s n

theorem identityHypotheses_eq_replicate (s : Str) (n : Nat) :
    identityHypotheses s n = List.replicate n (Hyp.mk s 0) := by
  unfold identityHypotheses
  rw [List.map_const', List.length_range]

theorem sum_map_const {α : Type} (l : List α) (f : α → Nat) (n : Nat)
    (h : ∀ x ∈ l, f x = n) : (l.map f).sum = l.length * n := by
  induction l with
  | nil => simp
  | cons x xs ih =>
    rw [List.map_cons, List.sum_cons, h x (List.mem_cons_self x xs),
      ih (fun y hy => h y (List.mem_cons_of_mem x hy)), List.length_cons,
      Nat.succ_mul, Nat.add_comm]

/-! # The claims -/

/-- C2: for every `n ≥ 1` and every input text, `hypotheses(text, n)`
returns a list of length exactly `n`: unconditionally for
`IdentityTranslation` and `RemoteTranslation`, and for
`CompositeTranslation` under the hypothesis that both sub-translations
satisfy the same length contract. -/
theorem hypotheses_length_contract :
    (∀ (s : Str) (n : Nat), 1 ≤ n → (identityHypotheses s n).length = n)
    ∧ (∀ (api : Str → Str → Str → Str) (fc tc s : Str) (n : Nat), 1 ≤ n →
        (remoteHypotheses api fc tc s n).length = n)
    ∧ (∀ (t1 t2 : HypFn),
        (∀ s n, 1 ≤ n → (t1 s n).length = n) →
        (∀ s n, 1 ≤ n → (t2 s n).length = n) →
        ∀ s n, 1 ≤ n → (compositeHypotheses t1 t2 s n).length = n) := by
  refine ⟨?_, ?_, ?_⟩
  · intro s n _
    unfold identityHypotheses
    rw [List.length_map, List.length_range]
  · intro api fc tc s n _
    unfold remoteHypotheses
    rw [List.length_replicate]
  · intro t1 t2 h1 h2 s n hn
    rw [compositeHypotheses_eq_spec]
    unfold specCompositeHypotheses
    dsimp only
    rw [List.length_take, sortHypDesc_length, List.length_flatMap]
    simp only [Function.comp_def]
    have hsum : ((t1 s n).map
        (fun h1 => ((t2 h1.value n).map
          (fun h2 => Hyp.mk h2.value (h1.score + h2.score))).length)).sum
        = n * n := by
      rw [sum_map_const _ _ n (fun x _ => by
        rw [List.length_map]
        exact h2 x.value n hn), h1 s n hn]
    rw [hsum]
    exact Nat.min_eq_left (Nat.le_mul_of_pos_left n hn)

/-- Witness for C2 at concrete inputs. -/
theorem hypotheses_length_contract_witness :
    (identityHypotheses "a".toList 2).length = 2
    ∧ (remoteHypotheses (fun s _ _ => s) "en".toList "es".toList
        "a".toList 3).length = 3
    ∧ (compositeHypotheses (fun s k => List.replicate k (Hyp.mk s 0))
        (fun s k => List.replicate k (Hyp.mk s 1)) "a".toList 2).length
        = 2 :=
  ⟨hypotheses_length_contract.1 "a".toList 2 (by decide),
   hypotheses_length_contract.2.1 (fun s _ _ => s) "en".toList "es".toList
     "a".toList 3 (by decide),
   hypotheses_length_contract.2.2 (fun s k => List.replicate k (Hyp.mk s 0))
     (fun s k => List.replicate k (Hyp.mk s 1))
     (fun s n _ => List.length_replicate n _)
     (fun s n _ => List.length_replicate n _) "a".toList 2 (by decide)⟩

/-- C3: `CompositeTranslation(t1, t2).hypotheses(text, n)` is exactly the
spec's computation: cross product of the two hypothesis lists with values
from the second leg, scores added, sorted descending by score (stable,
best first), truncated to the first `n`. -/
theorem composite_hypotheses_is_spec (t1 t2 : HypFn) (input_text : Str)
    (n : Nat) (hn : 1 ≤ n) :
    compositeHypotheses t1 t2 input_text n
      = specCompositeHypotheses t1 t2 input_text n :=
  compositeHypotheses_eq_spec t1 t2 input_text n

/-- Witness for C3 at a concrete input. -/
theorem composite_hypotheses_is_spec_witness :
    compositeHypotheses (fun s _ => [Hyp.mk s 0])
      (fun s _ => [Hyp.mk (s ++ s) 1]) "a".toList 1
      = specCompositeHypotheses (fun s _ => [Hyp.mk s 0])
        (fun s _ => [Hyp.mk (s ++ s) 1]) "a".toList 1 :=
  composite_hypotheses_is_spec (fun s _ => [Hyp.mk s 0])
    (fun s _ => [Hyp.mk (s ++ s) 1]) "a".toList 1 (by decide)

/-- C8: `translate_tags` returns a non-translateable node unchanged and
never invokes the translation on it or any of its children (the trace of
translation inputs is empty). -/
theorem translate_tags_not_translateable (tr : Str → Str) (cs : TagList) :
    translate_tags tr (TagNode.tag false cs) = (TagNode.tag false cs, []) :=
  rfl

/-- C10: an input of length at most 1 makes `FewShotTranslation.hypotheses`
skip the sentence loop entirely: the language model is never invoked (empty
trace) and the result is `n` copies of `Hypothesis("", 0)`; consequently
`translate` returns the empty string. -/
theorem fewshot_short_input (infer : Str → Str)
    (from_name from_code to_name to_code input_text : Str) (n : Nat)
    (h : input_text.length ≤ 1) :
    fewShotHypotheses infer from_name from_code to_name to_code input_text n
      = some (List.replicate n (Hyp.mk [] 0), []) := by
  have hguard : ¬ (0 < input_text.length - 1) := by omega
  have hloop : fewShotSentencesAux infer input_text
      (input_text.length + 1) 0 [] [] = some ([], []) := by
    unfold fewShotSentencesAux
    rw [if_neg hguard]
  unfold fewShotHypotheses
  rw [hloop]
  rfl

/-- Witness for C10 at a one-character input. -/
theorem fewshot_short_input_witness :
    fewShotHypotheses (fun _ => []) "English".toList "en".toList
      "Spanish".toList "es".toList "a".toList 2
      = some (List.replicate 2 (Hyp.mk [] 0), []) :=
  fewshot_short_input (fun _ => []) "English".toList "en".toList
    "Spanish".toList "es".toList "a".toList 2 (by decide)

/-- C5: on every `CachedTranslation.hypotheses(text, n)` call, a stored
entry is reused iff it exists with stored length exactly `n` (the
underlying translation is invoked exactly on the paragraphs missing that),
and the rebuilt cache holds entries for exactly this call's paragraphs. -/
theorem cached_reuse_and_rebuild (underlying : HypFn) (cache : Cache)
    (input_text : Str) (num_hypotheses : Nat) :
    ((cachedHypotheses underlying cache input_text num_hypotheses).calls
        = (split_into_paragraphs input_text).filter
            (cacheMiss cache num_hypotheses))
    ∧ (∀ p, cacheMiss cache num_hypotheses p = false
        ↔ ∃ tp, cacheLookup cache p = some tp
            ∧ tp.length = num_hypotheses)
    ∧ (∀ p tp, cacheLookup cache p = some tp →
        tp.length = num_hypotheses →
        cachedTranslatedParagraph underlying cache num_hypotheses p = tp)
    ∧ (∀ k, (cacheLookup (cachedHypotheses underlying cache input_text
          num_hypotheses).newCache k).isSome = true
        ↔ k ∈ split_into_paragraphs input_text) := by
  refine ⟨?_, ?_, ?_, ?_⟩
  · rw [cachedHypotheses_eq]
  · intro p
    unfold cacheMiss
    cases h : cacheLookup cache p with
    | none => simp
    | some tp => simp
  · intro p tp hl hlen
    unfold cachedTranslatedParagraph
    rw [hl]
    dsimp only
    rw [if_pos hlen]
  · intro k
    rw [cachedHypotheses_eq]
    dsimp only
    rw [cacheLookup_foldInsert_isSome]
    simp [cacheLookup]

/-- Witness for C5 at a concrete cache and text. -/
theorem cached_reuse_and_rebuild_witness :
    ((cachedHypotheses (fun s k => List.replicate k (Hyp.mk s 0))
        [("a".toList, [Hyp.mk "x".toList 0])] "a".toList 1).calls = [])
    ∧ cachedTranslatedParagraph (fun s k => List.replicate k (Hyp.mk s 0))
        [("a".toList, [Hyp.mk "x".toList 0])] 1 "a".toList
        = [Hyp.mk "x".toList 0]
    ∧ ((cacheLookup (cachedHypotheses
        (fun s k => List.replicate k (Hyp.mk s 0))
        [("a".toList, [Hyp.mk "x".toList 0])] "a".toList 1).newCache
        "a".toList).isSome = true) :=
  ⟨(cached_reuse_and_rebuild (fun s k => List.replicate k (Hyp.mk s 0))
      [("a".toList, [Hyp.mk "x".toList 0])] "a".toList 1).1.trans
      (by decide),
   (cached_reuse_and_rebuild (fun s k => List.replicate k (Hyp.mk s 0))
      [("a".toList, [Hyp.mk "x".toList 0])] "a".toList 1).2.2.1
      "a".toList [Hyp.mk "x".toList 0] (by decide) (by decide),
   ((cached_reuse_and_rebuild (fun s k => List.replicate k (Hyp.mk s 0))
      [("a".toList, [Hyp.mk "x".toList 0])] "a".toList 1).2.2.2
      "a".toList).mpr (by decide)⟩

/-- The per-rank value computation as claim C6 words it: join the rank's
per-paragraph translated values with newline and strip EXACTLY ONE leading
newline from the joined value.  Stated from the claim's words, for
comparison with the source's reassembly (which `lstrip`s ALL leading
newlines from a fold seeded with the empty string). -/
def claimRankValue (vals : List Str) : Str :=
  match joinNL vals with
  | '\n' :: rest => rest
  | s => s

/-- Counterexample to C6 as stated: with the identity translation
underlying the cache and input `"\n\na"` (two empty leading paragraphs),
the code returns the rank value `"a"` (all leading newlines stripped),
while joining the per-paragraph values and stripping exactly one leading
newline gives `"\na"`. -/
theorem cached_rank_strip_counterexample :
    ((cachedHypotheses (fun s k => List.replicate k (Hyp.mk s 0)) []
        "\n\na".toList 1).hyps.map Hyp.value = ["a".toList])
    ∧ claimRankValue ((cachedParagraphHyps
        (fun s k => List.replicate k (Hyp.mk s 0)) [] 1 "\n\na".toList).map
          (fun tp => (tp.getD 0 (Hyp.mk [] 0)).value)) = "\na".toList
    ∧ ("a".toList : Str) ≠ "\na".toList := by
  refine ⟨by decide, by decide, by decide⟩

/-- C6 amended: for each rank `i < n` the returned hypothesis joins that
rank's per-paragraph values with newline and sums that rank's scores, with
ALL leading newline characters stripped from the joined value (the
reassembly fold is seeded with an empty value, so the joined value always
starts with at least one newline, and the source `lstrip`s them all).  The
length contract on the underlying translation is the condition under which
the per-paragraph indexing (`translated_paragraphs[j][i]`, modelled
totally with a default) is the Python behaviour. -/
theorem cached_rank_reassembly (underlying : HypFn) (cache : Cache)
    (input_text : Str) (num_hypotheses : Nat)
    (hlen : ∀ p, (underlying p num_hypotheses).length = num_hypotheses)
    (i : Nat) (hi : i < num_hypotheses) :
    ((cachedHypotheses underlying cache input_text num_hypotheses).hyps
        ).get? i
      = some (Hyp.mk
          (lstripNL (joinNL ((cachedParagraphHyps underlying cache
            num_hypotheses input_text).map
            (fun tp => (tp.getD i (Hyp.mk [] 0)).value))))
          (((cachedParagraphHyps underlying cache num_hypotheses
            input_text).map
            (fun tp => (tp.getD i (Hyp.mk [] 0)).score)).sum)) := by
  rw [cachedHypotheses_eq]
  exact reassembleParagraphHyps_get? _ num_hypotheses i hi

/-- Witness for the amended C6 at the counterexample's input. -/
theorem cached_rank_reassembly_witness :
    ((cachedHypotheses (fun s k => List.replicate k (Hyp.mk s 0)) []
        "\n\na".toList 1).hyps).get? 0
      = some (Hyp.mk
          (lstripNL (joinNL ((cachedParagraphHyps
            (fun s k => List.replicate k (Hyp.mk s 0)) [] 1
            "\n\na".toList).map
            (fun tp => (tp.getD 0 (Hyp.mk [] 0)).value))))
          (((cachedParagraphHyps (fun s k => List.replicate k (Hyp.mk s 0))
            [] 1 "\n\na".toList).map
            (fun tp => (tp.getD 0 (Hyp.mk [] 0)).score)).sum)) :=
  cached_rank_reassembly (fun s k => List.replicate k (Hyp.mk s 0)) []
    "\n\na".toList 1 (fun p => List.length_replicate 1 _) 0 (by decide)

/-! ### Tag flatten/unflatten round trip (C9)

`unflatten_tag` parses by scanning for the sentinel markers, so a round
trip through `flatten_tag` recovers the tag only when the strings cannot
collide with the sentinels and no information is lost in flattening.  The
conditions used here: every string child is non-empty and sentinel-free
(neither `<argos-tag>` nor `</argos-tag>` occurs in it; since neither
sentinel has a proper border — `'<'` occurs in each only at position 0,
where the two differ at position 1 — a sentinel occurrence can neither
span a string boundary nor start inside the other sentinel), every tag
child holds exactly one string child, and no two consecutive children
are strings (adjacent strings merge into a single parsed piece). -/

/-- Neither sentinel marker occurs in the string as a substring. -/
def noSentinel (s : Str) : Bool :=
  (findSub ARGOS_OPEN_TAG s).isNone && (findSub ARGOS_CLOSE_TAG s).isNone

/-- A child the round trip preserves: a non-empty sentinel-free string, or
a tag holding exactly one sentinel-free string child. -/
def childOK : TagNode → Bool
  | .text s => !s.isEmpty && noSentinel s
  | .tag _ (.cons (.text u) .nil) => noSentinel u
  | .tag _ _ => false

def childrenOK : TagList → Bool
  | .nil => true
  | .cons h t => childOK h && childrenOK t

/-- No two consecutive children are strings. -/
def noAdjacentTexts : TagList → Bool
  | .cons (.text _) (.cons (.text _) _) => false
  | .cons _ t => noAdjacentTexts t
  | .nil => true

/-- The child list `unflatten_tag` recovers from `flatten_tag`'s output:
strings as themselves, each tag child as a translateable tag holding one
string child carrying the original tag child's text. -/
def parsedOf : TagList → TagList
  | .nil => .nil
  | .cons (.text s) t => .cons (.text s) (parsedOf t)
  | .cons (.tag _ cs) t =>
      .cons (.tag true (.cons (.text (textL cs)) .nil)) (parsedOf t)

theorem tagList_append_nil : ∀ (l : TagList), l.append .nil = l
  | .nil => rfl
  | .cons h t => by
    simp only [TagList.append]
    rw [tagList_append_nil t]

theorem tagList_append_cons_nil :
    ∀ (acc : TagList) (x : TagNode) (ys : TagList),
      (acc.append (.cons x .nil)).append ys = acc.append (.cons x ys)
  | .nil, x, ys => rfl
  | .cons h t, x, ys => by
    simp only [TagList.append]
    rw [tagList_append_cons_nil t x ys]

theorem findSubAux_nil (pat : Str) (acc : Nat) :
    findSubAux pat [] acc
      = if pat.isPrefixOf [] then some acc else none := rfl

theorem findSubAux_cons (pat : Str) (c : Char) (l : Str) (acc : Nat) :
    findSubAux pat (c :: l) acc
      = if pat.isPrefixOf (c :: l) then some acc
        else findSubAux pat l (acc + 1) := rfl

theorem findSubAux_shift (pat : Str) (l : Str) : ∀ acc : Nat,
    findSubAux pat l acc = (findSubAux pat l 0).map (· + acc) := by
  induction l with
  | nil =>
    intro acc
    rw [findSubAux_nil, findSubAux_nil]
    cases hp : pat.isPrefixOf ([] : Str) <;> simp
  | cons c rest ih =>
    intro acc
    rw [findSubAux_cons, findSubAux_cons]
    cases hp : pat.isPrefixOf (c :: rest)
    · simp only [Bool.false_eq_true, if_false]
      rw [ih (acc + 1), ih (0 + 1)]
      cases findSubAux pat rest 0 with
      | none => simp
      | some k =>
        simp only [Option.map_some']
        exact congrArg some (by omega)
    · simp

theorem findSub_cons (pat : Str) (c : Char) (l : Str) :
    findSub pat (c :: l)
      = if pat.isPrefixOf (c :: l) then some 0
        else (findSub pat l).map (· + 1) := by
  unfold findSub
  rw [findSubAux_cons]
  cases hp : pat.isPrefixOf (c :: l)
  · simp only [Bool.false_eq_true, if_false]
    exact findSubAux_shift pat l (0 + 1) |>.trans (by norm_num)
  · simp

theorem findSub_self_append (pat r : Str) : findSub pat (pat ++ r) = some 0 := by
  have h : pat.isPrefixOf (pat ++ r) = true :=
    List.isPrefixOf_iff_prefix.mpr (List.prefix_append pat r)
  cases hp : pat ++ r with
  | nil =>
    rw [hp] at h
    unfold findSub
    rw [findSubAux_nil, if_pos h]
  | cons c l =>
    rw [hp] at h
    unfold findSub
    rw [findSubAux_cons, if_pos h]

/-- A `find` miss means no occurrence at any position. -/
theorem findSub_none_forall (pat : Str) :
    ∀ (s : Str), findSub pat s = none →
      ∀ j, pat.isPrefixOf (s.drop j) = false
  | [], h, j => by
    rw [List.drop_nil]
    unfold findSub at h
    rw [findSubAux_nil] at h
    cases hp : pat.isPrefixOf ([] : Str)
    · rfl
    · rw [if_pos hp] at h
      exact Option.noConfusion h
  | c :: s', h, j => by
    rw [findSub_cons] at h
    cases hp : pat.isPrefixOf (c :: s')
    · rw [hp] at h
      simp only [Bool.false_eq_true, if_false] at h
      have h' : findSub pat s' = none := by
        cases hfs : findSub pat s'
        · rfl
        · rw [hfs] at h
          exact Option.noConfusion h
      cases j with
      | zero =>
        rw [List.drop_zero]
        exact hp
      | succ j' =>
        rw [List.drop_succ_cons]
        exact findSub_none_forall pat s' h' j'
    · rw [hp] at h
      simp at h

/-- `find` returns the position of an occurrence that nothing earlier
matches. -/
theorem findSub_eq_some_of (pat : Str) :
    ∀ (s : Str) (i : Nat),
      pat.isPrefixOf (s.drop i) = true →
      (∀ j, j < i → pat.isPrefixOf (s.drop j) = false) →
      findSub pat s = some i
  | [], i, hocc, hmin => by
    cases i with
    | zero =>
      rw [List.drop_zero] at hocc
      unfold findSub
      rw [findSubAux_nil, if_pos hocc]
    | succ i' =>
      have h0 := hmin 0 (Nat.succ_pos _)
      rw [List.drop_zero] at h0
      rw [List.drop_nil] at hocc
      rw [h0] at hocc
      exact absurd hocc (by simp)
  | c :: s', i, hocc, hmin => by
    cases i with
    | zero =>
      rw [List.drop_zero] at hocc
      rw [findSub_cons, if_pos hocc]
    | succ i' =>
      have h0 := hmin 0 (Nat.succ_pos _)
      rw [List.drop_zero] at h0
      rw [findSub_cons, if_neg (by simp [h0])]
      rw [List.drop_succ_cons] at hocc
      rw [findSub_eq_some_of pat s' i' hocc (fun j hj => by
        have hj1 := hmin (j + 1) (by omega)
        rw [List.drop_succ_cons] at hj1
        exact hj1)]
      rfl

/-- An occurrence of `pat` strictly before a genuine copy of `pat` either
lies inside the intervening text `t` or forces `pat` to overlap itself:
its prefix of length `t.length` glued to its prefix of the remaining
length re-forms `pat` (a proper border). -/
theorem pat_split (pat t z : Str) (ht : 0 < t.length)
    (hpre : pat.isPrefixOf (t ++ (pat ++ z)) = true) :
    pat.isPrefixOf t = true
    ∨ (t.length < pat.length
        ∧ pat = pat.take t.length ++ pat.take (pat.length - t.length)) := by
  have hp : pat <+: (t ++ (pat ++ z)) := List.isPrefixOf_iff_prefix.mp hpre
  have htake : pat = (t ++ (pat ++ z)).take pat.length :=
    List.prefix_iff_eq_take.mp hp
  by_cases hlen : pat.length ≤ t.length
  · left
    rw [List.take_append_of_le_length hlen] at htake
    rw [List.isPrefixOf_iff_prefix, htake]
    exact List.take_prefix _ _
  · right
    have hlt : t.length < pat.length := by omega
    refine ⟨hlt, ?_⟩
    rw [List.take_append_eq_append_take,
      List.take_of_length_le (le_of_lt hlt),
      List.take_append_of_le_length (by omega)] at htake
    have ht' : pat.take t.length = t := by
      conv_lhs => rw [htake]
      exact List.take_left t _
    rw [ht']
    exact htake

theorem noSentinel_open (s : Str) (h : noSentinel s = true) :
    findSub ARGOS_OPEN_TAG s = none := by
  unfold noSentinel at h
  rw [Bool.and_eq_true] at h
  exact Option.isNone_iff_eq_none.mp h.1

theorem noSentinel_close (s : Str) (h : noSentinel s = true) :
    findSub ARGOS_CLOSE_TAG s = none := by
  unfold noSentinel at h
  rw [Bool.and_eq_true] at h
  exact Option.isNone_iff_eq_none.mp h.2

/-- Opening-sentinel scan over sentinel-free text followed by a genuine
opening sentinel: the first hit is exactly at the boundary.  An earlier
hit inside the text contradicts sentinel-freeness, and one spanning the
boundary would give `<argos-tag>` a proper border, which a finite check
rules out. -/
theorem findSub_open_prefix_piece (s z : Str)
    (hs : findSub ARGOS_OPEN_TAG s = none) :
    findSub ARGOS_OPEN_TAG (s ++ (ARGOS_OPEN_TAG ++ z)) = some s.length := by
  have h11 : ARGOS_OPEN_TAG.length = 11 := rfl
  apply findSub_eq_some_of
  · rw [List.drop_left]
    exact List.isPrefixOf_iff_prefix.mpr (List.prefix_append _ _)
  · intro j hj
    cases hcon : ARGOS_OPEN_TAG.isPrefixOf ((s ++ (ARGOS_OPEN_TAG ++ z)).drop j)
    · rfl
    · exfalso
      rw [List.drop_append_of_le_length (le_of_lt hj)] at hcon
      have ht : 0 < (s.drop j).length := by
        rw [List.length_drop]
        omega
      rcases pat_split ARGOS_OPEN_TAG (s.drop j) z ht hcon
        with hin | ⟨hlt, hbord⟩
      · rw [findSub_none_forall ARGOS_OPEN_TAG s hs j] at hin
        exact Bool.noConfusion hin
      · have hnb : ∀ k, k < 11 → 0 < k →
            ¬ (ARGOS_OPEN_TAG
              = ARGOS_OPEN_TAG.take k ++ ARGOS_OPEN_TAG.take (11 - k)) := by
          decide
        rw [h11] at hbord
        exact hnb (s.drop j).length (by omega) ht hbord

/-- Position of the closing sentinel in a flattened tag piece: it cannot
start inside the opening sentinel (`'<'` occurs there only at position 0,
where `'/'` vs `'a'` differ next), inside sentinel-free `u`, or spanning
the `u`/closing boundary (no proper border). -/
theorem findSub_close_tagpiece (u F : Str)
    (hu : findSub ARGOS_CLOSE_TAG u = none) :
    findSub ARGOS_CLOSE_TAG
        (ARGOS_OPEN_TAG ++ (u ++ (ARGOS_CLOSE_TAG ++ F)))
      = some (u.length + 11) := by
  have h11 : ARGOS_OPEN_TAG.length = 11 := rfl
  have h12 : ARGOS_CLOSE_TAG.length = 12 := rfl
  have hassoc : ARGOS_OPEN_TAG ++ (u ++ (ARGOS_CLOSE_TAG ++ F))
      = (ARGOS_OPEN_TAG ++ u) ++ (ARGOS_CLOSE_TAG ++ F) := by
    rw [List.append_assoc]
  apply findSub_eq_some_of
  · rw [hassoc,
      show u.length + 11 = (ARGOS_OPEN_TAG ++ u).length from by
        rw [List.length_append]; omega,
      List.drop_left]
    exact List.isPrefixOf_iff_prefix.mpr (List.prefix_append _ _)
  · intro j hj
    cases hcon : ARGOS_CLOSE_TAG.isPrefixOf
        ((ARGOS_OPEN_TAG ++ (u ++ (ARGOS_CLOSE_TAG ++ F))).drop j)
    · rfl
    · exfalso
      rcases Nat.lt_or_ge j 11 with hj11 | hj11
      · rcases Nat.eq_zero_or_pos j with hj0 | hjpos
        · subst hj0
          rw [List.drop_zero] at hcon
          rw [show ARGOS_CLOSE_TAG.isPrefixOf
              (ARGOS_OPEN_TAG ++ (u ++ (ARGOS_CLOSE_TAG ++ F))) = false
            from rfl] at hcon
          exact Bool.noConfusion hcon
        · rw [List.drop_append_of_le_length (by omega)] at hcon
          rw [List.drop_eq_getElem_cons (by omega), List.cons_append]
            at hcon
          rw [show ARGOS_CLOSE_TAG = '<' :: "/argos-tag>".toList from rfl]
            at hcon
          simp only [List.isPrefixOf, Bool.and_eq_true, beq_iff_eq] at hcon
          obtain ⟨heq, -⟩ := hcon
          have hchars : ∀ k, ∀ hk : k < 11, 0 < k →
              ¬ ARGOS_OPEN_TAG.get ⟨k, hk⟩ = '<' := by decide
          exact hchars j (by omega) hjpos heq.symm
      · rw [hassoc] at hcon
        rw [List.drop_append_of_le_length (by
          rw [List.length_append]
          omega)] at hcon
        rw [show (ARGOS_OPEN_TAG ++ u).drop j = u.drop (j - 11) from by
          rw [List.drop_append_eq_append_drop,
            List.drop_eq_nil_of_le (by omega), h11, List.nil_append]]
          at hcon
        have ht : 0 < (u.drop (j - 11)).length := by
          rw [List.length_drop]
          omega
        rcases pat_split ARGOS_CLOSE_TAG (u.drop (j - 11)) F ht hcon
          with hin | ⟨hlt, hbord⟩
        · rw [findSub_none_forall ARGOS_CLOSE_TAG u hu (j - 11)] at hin
          exact Bool.noConfusion hin
        · have hnb : ∀ k, k < 12 → 0 < k →
              ¬ (ARGOS_CLOSE_TAG
                = ARGOS_CLOSE_TAG.take k
                    ++ ARGOS_CLOSE_TAG.take (12 - k)) := by
            decide
          rw [h12] at hbord
          exact hnb (u.drop (j - 11)).length (by omega) ht hbord

theorem open_append_length_ne (z : Str) :
    ¬ (ARGOS_OPEN_TAG ++ z).length = 0 := by
  rw [List.length_append]
  have h11 : ARGOS_OPEN_TAG.length = 11 := rfl
  omega

/-- The parse loop of `unflatten_tag`, run on the output of
`flatten_tag`, recovers `parsedOf` of the original children. -/
theorem unflattenAux_flatten : ∀ (cs : TagList),
    childrenOK cs = true → noAdjacentTexts cs = true →
    ∀ (fuel : Nat), (flattenChildren cs).length < fuel → ∀ (acc : TagList),
      unflattenAux fuel (flattenChildren cs) acc
        = some (acc.append (parsedOf cs))
  | .nil, _, _, fuel, hf, acc => by
    cases fuel with
    | zero => exact absurd hf (Nat.not_lt_zero _)
    | succ f =>
      rw [show flattenChildren .nil = ([] : Str) from rfl] at hf ⊢
      unfold unflattenAux
      rw [show parsedOf .nil = TagList.nil from rfl, tagList_append_nil]
      rw [if_pos (show List.length ([] : Str) = 0 from rfl)]
  | .cons (.text s) .nil, hok, hadj, fuel, hf, acc => by
    simp only [childrenOK, childOK, Bool.and_eq_true] at hok
    obtain ⟨⟨hs1, hs2⟩, -⟩ := hok
    have hsnil : s ≠ [] := by
      intro hnil
      subst hnil
      simp at hs1
    have hflat : flattenChildren (.cons (.text s) .nil) = s := by
      simp [flattenChildren]
    cases fuel with
    | zero => exact absurd hf (Nat.not_lt_zero _)
    | succ f =>
      rw [hflat] at hf ⊢
      unfold unflattenAux
      rw [if_neg (fun h => hsnil (List.length_eq_zero.mp h))]
      rw [noSentinel_open s hs2]
      rfl
  | .cons (.text s) (.cons (.text s') t), hok, hadj, fuel, hf, acc => by
    simp [noAdjacentTexts] at hadj
  | .cons (.text s) (.cons (.tag b2 cs2) t), hok, hadj, fuel, hf, acc => by
    simp only [childrenOK, Bool.and_eq_true] at hok
    obtain ⟨hs1, htag, hokt⟩ := hok
    simp only [childOK, Bool.and_eq_true] at hs1
    obtain ⟨hs1a, hs1b⟩ := hs1
    have hsnil : s ≠ [] := by
      intro hnil
      subst hnil
      simp at hs1a
    have hok' : childrenOK (.cons (.tag b2 cs2) t) = true := by
      simp only [childrenOK, Bool.and_eq_true]
      exact ⟨htag, hokt⟩
    have hadj' : noAdjacentTexts (.cons (.tag b2 cs2) t) = true := by
      simpa [noAdjacentTexts] using hadj
    have hR : flattenChildren (.cons (.tag b2 cs2) t)
        = ARGOS_OPEN_TAG
            ++ (textL cs2 ++ (ARGOS_CLOSE_TAG ++ flattenChildren t)) := by
      simp only [flattenChildren, List.append_assoc]
    have hflat : flattenChildren (.cons (.text s) (.cons (.tag b2 cs2) t))
        = s ++ flattenChildren (.cons (.tag b2 cs2) t) := by
      simp only [flattenChildren]
    cases fuel with
    | zero => exact absurd hf (Nat.not_lt_zero _)
    | succ f =>
      rw [hflat] at hf ⊢
      unfold unflattenAux
      rw [if_neg (by
        rw [List.length_append]
        intro h
        exact hsnil (List.length_eq_zero.mp (by omega)))]
      have hfind : findSub ARGOS_OPEN_TAG
          (s ++ flattenChildren (.cons (.tag b2 cs2) t))
          = some s.length := by
        rw [hR]
        exact findSub_open_prefix_piece s _ (noSentinel_open s hs1b)
      rw [hfind]
      dsimp only
      rw [if_pos (List.length_pos.mpr hsnil)]
      rw [List.take_left, List.drop_left]
      rw [unflattenAux_flatten (.cons (.tag b2 cs2) t) hok' hadj' f
        (by
          rw [List.length_append] at hf
          have := List.length_pos.mpr hsnil
          omega) _]
      rw [tagList_append_cons_nil]
      rfl
  | .cons (.tag b2 (.cons (.text u) .nil)) t, hok, hadj, fuel, hf, acc => by
    simp only [childrenOK, childOK, Bool.and_eq_true] at hok
    obtain ⟨hu, hokt⟩ := hok
    have hadjt : noAdjacentTexts t = true := by
      simpa [noAdjacentTexts] using hadj
    have htext : textL (.cons (.text u) .nil) = u := by
      simp [textL, textT]
    have hflat : flattenChildren (.cons (.tag b2 (.cons (.text u) .nil)) t)
        = ARGOS_OPEN_TAG
            ++ (u ++ (ARGOS_CLOSE_TAG ++ flattenChildren t)) := by
      simp only [flattenChildren, htext, List.append_assoc]
    have h11 : ARGOS_OPEN_TAG.length = 11 := rfl
    have h12 : ARGOS_CLOSE_TAG.length = 12 := rfl
    cases fuel with
    | zero => exact absurd hf (Nat.not_lt_zero _)
    | succ f =>
      rw [hflat] at hf ⊢
      unfold unflattenAux
      rw [if_neg (open_append_length_ne _)]
      rw [findSub_self_append ARGOS_OPEN_TAG _]
      dsimp only
      rw [if_neg (by omega)]
      rw [findSub_close_tagpiece u (flattenChildren t) (noSentinel_close u hu)]
      dsimp only
      have hslice : sliceL
          (ARGOS_OPEN_TAG ++ (u ++ (ARGOS_CLOSE_TAG ++ flattenChildren t)))
          ARGOS_OPEN_TAG.length (u.length + 11) = u := by
        unfold sliceL
        rw [List.drop_left]
        rw [show u.length + 11 - ARGOS_OPEN_TAG.length = u.length from by
          omega]
        exact List.take_left u _
      have hdrop :
          (ARGOS_OPEN_TAG
            ++ (u ++ (ARGOS_CLOSE_TAG ++ flattenChildren t))).drop
            (u.length + 11 + ARGOS_CLOSE_TAG.length)
          = flattenChildren t := by
        rw [show ARGOS_OPEN_TAG
              ++ (u ++ (ARGOS_CLOSE_TAG ++ flattenChildren t))
            = (ARGOS_OPEN_TAG ++ u ++ ARGOS_CLOSE_TAG)
                ++ flattenChildren t from by
          simp [List.append_assoc]]
        rw [show u.length + 11 + ARGOS_CLOSE_TAG.length
            = (ARGOS_OPEN_TAG ++ u ++ ARGOS_CLOSE_TAG).length from by
          simp only [List.length_append]
          omega]
        exact List.drop_left _ _
      rw [hslice, hdrop]
      rw [unflattenAux_flatten t hokt hadjt f
        (by
          rw [List.length_append, List.length_append,
            List.length_append] at hf
          omega) _]
      rw [tagList_append_cons_nil]
      simp only [parsedOf, htext]
  | .cons (.tag b2 .nil) t, hok, hadj, fuel, hf, acc => by
    simp [childrenOK, childOK] at hok
  | .cons (.tag b2 (.cons (.text u) (.cons x y))) t, hok, hadj, fuel, hf,
      acc => by
    simp [childrenOK, childOK] at hok
  | .cons (.tag b2 (.cons (.tag b3 cs3) z)) t, hok, hadj, fuel, hf, acc => by
    simp [childrenOK, childOK] at hok

theorem depthL_parsedOf : ∀ (cs : TagList), childrenOK cs = true →
    depthL (parsedOf cs) = depthL cs
  | .nil, _ => rfl
  | .cons (.text s) t, hok => by
    simp only [childrenOK, Bool.and_eq_true] at hok
    simp only [parsedOf, depthL, depthT]
    rw [depthL_parsedOf t hok.2]
  | .cons (.tag b2 (.cons (.text u) .nil)) t, hok => by
    simp only [childrenOK, Bool.and_eq_true] at hok
    simp only [parsedOf, depthL, depthT, textL, textT]
    rw [depthL_parsedOf t hok.2]
  | .cons (.tag b2 .nil) t, hok => by
    simp [childrenOK, childOK] at hok
  | .cons (.tag b2 (.cons (.text u) (.cons x y))) t, hok => by
    simp [childrenOK, childOK] at hok
  | .cons (.tag b2 (.cons (.tag b3 cs3) z)) t, hok => by
    simp [childrenOK, childOK] at hok

theorem parsedOf_cons : ∀ (h : TagNode) (t : TagList),
    ∃ h', parsedOf (.cons h t) = .cons h' (parsedOf t)
  | .text s, t => ⟨.text s, rfl⟩
  | .tag b cs, t => ⟨.tag true (.cons (.text (textL cs)) .nil), rfl⟩

theorem depthT_parsed (b : Bool) : ∀ (cs : TagList), childrenOK cs = true →
    depthT (.tag b cs) = 2 → depthT (.tag true (parsedOf cs)) = 2
  | .nil, _, hdepth => by
    rw [show depthT (.tag b .nil) = 0 from rfl] at hdepth
    exact absurd hdepth (by omega)
  | .cons h t, hok, hdepth => by
    obtain ⟨h', hp⟩ := parsedOf_cons h t
    rw [hp]
    have hdL : depthL (.cons h' (parsedOf t)) = depthL (.cons h t) := by
      rw [← hp]
      exact depthL_parsedOf (.cons h t) hok
    rw [show depthT (.tag true (.cons h' (parsedOf t)))
        = depthL (.cons h' (parsedOf t)) + 1 from rfl, hdL]
    rw [show depthT (.tag b (.cons h t)) = depthL (.cons h t) + 1 from rfl]
      at hdepth
    exact hdepth

theorem tagEqL_parsedOf : ∀ (cs : TagList), childrenOK cs = true →
    tagEqL (parsedOf cs) cs = true
  | .nil, _ => rfl
  | .cons (.text s) t, hok => by
    simp only [childrenOK, Bool.and_eq_true] at hok
    simp only [parsedOf, tagEqL, tagEq, Bool.and_eq_true]
    exact ⟨by simp, tagEqL_parsedOf t hok.2⟩
  | .cons (.tag b2 (.cons (.text u) .nil)) t, hok => by
    simp only [childrenOK, Bool.and_eq_true] at hok
    simp only [parsedOf, tagEqL, tagEq, textL, textT, Bool.and_eq_true]
    refine ⟨?_, tagEqL_parsedOf t hok.2⟩
    simp
  | .cons (.tag b2 .nil) t, hok => by
    simp [childrenOK, childOK] at hok
  | .cons (.tag b2 (.cons (.text u) (.cons x y))) t, hok => by
    simp [childrenOK, childOK] at hok
  | .cons (.tag b2 (.cons (.tag b3 cs3) z)) t, hok => by
    simp [childrenOK, childOK] at hok

/-- A round trip through `flatten_tag` then `unflatten_tag` loses the
boundary between adjacent string children: they merge into one parsed
string, so the parsed tag has fewer children and `ITag.__eq__` fails even
though the input satisfies the depth, non-empty-string, single-string-tag
and sentinel-free conditions. -/
theorem flatten_unflatten_counterexample :
    (unflatten_tag (flatten_tag (.tag true (.cons (.text "a".toList)
        (.cons (.text "b".toList)
          (.cons (.tag true (.cons (.text "x".toList) .nil)) .nil)))))).map
      (fun u => tagEq u (.tag true (.cons (.text "a".toList)
        (.cons (.text "b".toList)
          (.cons (.tag true (.cons (.text "x".toList) .nil)) .nil)))))
      = some false := by decide

/-- C9 amended: for a tag of depth exactly 2 whose string children are
non-empty and contain neither sentinel marker `<argos-tag>` nor
`</argos-tag>` as a substring, whose tag children hold exactly one
(sentinel-free) string child each, and in which no two consecutive
children are strings, `unflatten_tag (flatten_tag t)` returns a tag equal
to `t` under `ITag.__eq__` (same child count, same strings; the
`translateable` flags are not compared). -/
theorem flatten_unflatten_roundtrip : ∀ (b : Bool) (cs : TagList),
    childrenOK cs = true → noAdjacentTexts cs = true →
    depthT (.tag b cs) = 2 →
    (unflatten_tag (flatten_tag (.tag b cs))).map
      (fun u => tagEq u (.tag b cs)) = some true := by
  intro b cs hok hadj hdepth
  rw [show flatten_tag (.tag b cs) = flattenChildren cs from rfl]
  unfold unflatten_tag
  rw [unflattenAux_flatten cs hok hadj ((flattenChildren cs).length + 1)
    (Nat.lt_succ_self _) .nil]
  rw [show TagList.nil.append (parsedOf cs) = parsedOf cs from rfl]
  dsimp only
  rw [if_neg (not_not_intro (depthT_parsed b cs hok hdepth))]
  simp only [Option.map_some']
  rw [show tagEq (.tag true (parsedOf cs)) (.tag b cs)
      = tagEqL (parsedOf cs) cs from rfl]
  rw [tagEqL_parsedOf cs hok]

/-- Witness for the amended C9: `ITag(["a<b", ITag(["x"]), "b"])` — the
first string contains a bare `'<'` (sentinel-free, but not `'<'`-free)
and the inner tag is not translateable, exercising that the flag is not
compared. -/
theorem flatten_unflatten_roundtrip_witness :
    (unflatten_tag (flatten_tag (.tag true (.cons (.text "a<b".toList)
        (.cons (.tag false (.cons (.text "x".toList) .nil))
          (.cons (.text "b".toList) .nil)))))).map
      (fun u => tagEq u (.tag true (.cons (.text "a<b".toList)
        (.cons (.tag false (.cons (.text "x".toList) .nil))
          (.cons (.text "b".toList) .nil))))) = some true :=
  flatten_unflatten_roundtrip true _ (by decide) (by decide) (by decide)

/-! ### Self-translation (C4) -/

/-- A package whose `from_code` equals its `to_code` is loaded onto the
language's `translations_from` before the identity pass appends
`IdentityTranslation`, so `get_translation(L, L)` returns the package
translation, not the identity: with a packaged pipeline that outputs
`"X"` for every input, the self-translation of `"a"` is `"X"`, not `"a"`. -/
theorem self_translation_counterexample :
    ¬ (∀ L ∈ get_installed_languages
          [PkgD.mk "en".toList "English".toList "en".toList "English".toList
            "translate".toList []] true,
        ∀ t, get_translation L L = some t →
          translateOf
            (transSem (fun _ _ n => List.replicate n (Hyp.mk "X".toList 0)) t)
            "a".toList = some "a".toList) := by
  intro h
  have hmem : LangS.mk "en".toList "English".toList
      [Trans.pkgT "en".toList "en".toList
        (PkgD.mk "en".toList "English".toList "en".toList "English".toList
          "translate".toList []),
       Trans.idT "en".toList]
      [Trans.pkgT "en".toList "en".toList
        (PkgD.mk "en".toList "English".toList "en".toList "English".toList
          "translate".toList []),
       Trans.idT "en".toList]
      ∈ get_installed_languages
        [PkgD.mk "en".toList "English".toList "en".toList "English".toList
          "translate".toList []] true := by
    unfold get_installed_languages
    rw [mem_reorderLanguages]
    decide
  have hval := h _ hmem
    (Trans.pkgT "en".toList "en".toList
      (PkgD.mk "en".toList "English".toList "en".toList "English".toList
        "translate".toList []))
    (by decide)
  exact absurd hval (by decide)

/-- C4 amended: for every language `L` of the built graph (including one
that appears only as a destination), `L.get_translation(L)` is defined —
the identity pass gives every language a self edge; and provided no
effective `translate` package is a self-package (`from_code ≠ to_code`
for each), the returned translation is the `IdentityTranslation`, whose
hypotheses are `n` copies of `Hypothesis(s, 0)`, so `translate(s) = s`.
(A self-package is loaded onto `translations_from` before the identity
pass, so it shadows the identity and `translate(s)` is then the packaged
pipeline's output.) -/
theorem self_translation_identity (packages : List PkgD)
    (stanza_available : Bool) (L : LangS)
    (hL : L ∈ get_installed_languages packages stanza_available)
    (oracle : PkgD → Str → Nat → List Hyp) (s : Str) (n : Nat) :
    (get_translation L L).isSome = true
    ∧ ((∀ p ∈ translatePackages packages stanza_available,
          p.from_code ≠ p.to_code) →
        get_translation L L = some (Trans.idT L.code)
        ∧ transSem oracle (Trans.idT L.code) s n
            = List.replicate n (Hyp.mk s 0)
        ∧ translateOf (transSem oracle (Trans.idT L.code)) s = some s) := by
  unfold get_installed_languages at hL
  rw [mem_reorderLanguages] at hL
  obtain ⟨hnodup, hprop⟩ :=
    buildGraph_spec (translatePackages packages stanza_available)
  constructor
  · rw [get_translation_isSome _ L L hL hnodup]
    exact hprop L.code (List.mem_map_of_mem (·.code) hL) L.code
      Relation.ReflTransGen.refl
  intro hself
  refine ⟨?_, identityHypotheses_eq_replicate s n, ?_⟩
  · have htf : tfOf (buildGraph (translatePackages packages
        stanza_available)) L.code = L.translations_from :=
      tfOf_of_mem _ L hL hnodup
    obtain ⟨hle, hcodes⟩ :=
      buildGraph_extends (translatePackages packages stanza_available)
    have hcodeF : L.code ∈ codesOf (buildGraph (translatePackages packages
        stanza_available)) := List.mem_map_of_mem (·.code) hL
    have hcodeB := hcodes ▸ hcodeF
    rw [codesOf_addIdentities] at hcodeB
    have hlangLoad : hasLang
        (loadPackages (translatePackages packages stanza_available))
        L.code = true := (hasLang_iff _ _).mpr hcodeB
    have hB := tfOf_addIdentities
      (loadPackages (translatePackages packages stanza_available))
      L.code hlangLoad
    obtain ⟨rest, hrest⟩ := hle L.code
    have hfilterLoad : (tfOf
        (loadPackages (translatePackages packages stanza_available))
        L.code).filter (fun t => t.toCode = L.code) = [] := by
      rw [List.filter_eq_nil_iff]
      intro t ht
      obtain ⟨p, hp, hteq, hfrom⟩ :=
        loadPackages_shape (translatePackages packages stanza_available)
          L.code t ht
      subst hteq
      simp only [Trans.toCode, decide_eq_true_eq]
      intro hto
      exact hself p hp (by rw [hfrom, hto])
    unfold get_translation
    rw [← htf, ← hrest, hB, List.filter_append, List.filter_append,
      hfilterLoad]
    simp [Trans.toCode]
  · unfold translateOf
    rw [show transSem oracle (Trans.idT L.code) s 1
        = List.replicate 1 (Hyp.mk s 0) from
      identityHypotheses_eq_replicate s 1]
    rfl

/-- Witness for the amended C4: one installed `en→es` package (no
self-package), checked on the built English language with a constant
`"X"`-producing pipeline, `s = "hi"`, `n = 2`: the self-translation is
defined, is the identity, and returns `"hi"` unchanged. -/
theorem self_translation_identity_witness :
    (let enW := LangS.mk "en".toList "English".toList
      [Trans.pkgT "en".toList "es".toList
        (PkgD.mk "en".toList "English".toList "es".toList "Spanish".toList
          "translate".toList []),
       Trans.idT "en".toList]
      [Trans.idT "en".toList]
     (get_translation enW enW).isSome = true
     ∧ (get_translation enW enW = some (Trans.idT enW.code)
        ∧ transSem (fun _ _ k => List.replicate k (Hyp.mk "X".toList 0))
            (Trans.idT enW.code) "hi".toList 2
            = List.replicate 2 (Hyp.mk "hi".toList 0)
        ∧ translateOf
            (transSem (fun _ _ k => List.replicate k (Hyp.mk "X".toList 0))
              (Trans.idT enW.code)) "hi".toList = some "hi".toList)) :=
  have h := self_translation_identity
    [PkgD.mk "en".toList "English".toList "es".toList "Spanish".toList
      "translate".toList []]
    true
    (LangS.mk "en".toList "English".toList
      [Trans.pkgT "en".toList "es".toList
        (PkgD.mk "en".toList "English".toList "es".toList "Spanish".toList
          "translate".toList []),
       Trans.idT "en".toList]
      [Trans.idT "en".toList])
    (by
      unfold get_installed_languages
      rw [mem_reorderLanguages]
      decide)
    (fun _ _ k => List.replicate k (Hyp.mk "X".toList 0)) "hi".toList 2
  ⟨h.1, h.2 (by decide)⟩

/-! ### Reachability of the built graph (C1) -/

/-- C1: in the graph built by `get_installed_languages` from the installed
packages, whenever a path of direct `translate`-package edges leads from
language `L` to language `M`, the pivot-closure pass has installed an edge,
so `L.get_translation(M)` returns a translation (is not `None`). -/
theorem installed_languages_reachability (packages : List PkgD)
    (stanza_available : Bool) (L M : LangS)
    (hL : L ∈ get_installed_languages packages stanza_available)
    (hM : M ∈ get_installed_languages packages stanza_available)
    (hreach : ReachesDirect (translatePackages packages stanza_available)
      L.code M.code) :
    (get_translation L M).isSome = true := by
  unfold get_installed_languages at hL hM
  rw [mem_reorderLanguages] at hL hM
  obtain ⟨hnodup, hprop⟩ :=
    buildGraph_spec (translatePackages packages stanza_available)
  rw [get_translation_isSome _ L M hL hnodup]
  exact hprop L.code (List.mem_map_of_mem (·.code) hL) M.code hreach

/-- Witness for C1: a single installed `en→es` translate package; the
built graph holds English and Spanish, and English reaches Spanish by the
one direct edge. -/
theorem installed_languages_reachability_witness :
    (get_translation
      (LangS.mk "en".toList "English".toList
        [Trans.pkgT "en".toList "es".toList
          (PkgD.mk "en".toList "English".toList "es".toList "Spanish".toList
            "translate".toList []),
         Trans.idT "en".toList]
        [Trans.idT "en".toList])
      (LangS.mk "es".toList "Spanish".toList
        [Trans.idT "es".toList]
        [Trans.pkgT "en".toList "es".toList
          (PkgD.mk "en".toList "English".toList "es".toList "Spanish".toList
            "translate".toList []),
         Trans.idT "es".toList])).isSome = true :=
  installed_languages_reachability
    [PkgD.mk "en".toList "English".toList "es".toList "Spanish".toList
      "translate".toList []]
    true _ _
    (by
      unfold get_installed_languages
      rw [mem_reorderLanguages]
      decide)
    (by
      unfold get_installed_languages
      rw [mem_reorderLanguages]
      decide)
    (Relation.ReflTransGen.single
      ⟨PkgD.mk "en".toList "English".toList "es".toList "Spanish".toList
        "translate".toList [],
       by decide, by decide, by decide⟩)

/-! ### The chunker (C7) -/

theorem bestFold_ge_one (u tc : Str) (htc : tc ≠ []) :
    ∀ (cands : List Nat) (st : Nat × ℚ), 1 ≤ st.1 → 1/2 ≤ st.2 →
      1 ≤ (cands.foldl (fun (best : Nat × ℚ) i =>
        let score := ratioL (u.take i) tc
        if score > best.2 then (i, score) else best) st).1 := by
  intro cands
  induction cands with
  | nil => intro st h1 _; exact h1
  | cons i rest ih =>
    intro st h1 h2
    rw [List.foldl_cons]
    dsimp only
    by_cases hgt : ratioL (u.take i) tc > st.2
    · rw [if_pos hgt]
      apply ih
      · rcases Nat.eq_zero_or_pos i with hi0 | hipos
        · exfalso
          subst hi0
          rw [List.take_zero, ratioL_nil tc htc] at hgt
          linarith
        · exact hipos
      · linarith
    · rw [if_neg hgt]
      exact ih st h1 h2

theorem bestFold_noupdate (u tc : Str) :
    ∀ (cands : List Nat) (st : Nat × ℚ),
      (∀ i ∈ cands, ratioL (u.take i) tc ≤ st.2) →
      cands.foldl (fun (best : Nat × ℚ) i =>
        let score := ratioL (u.take i) tc
        if score > best.2 then (i, score) else best) st = st := by
  intro cands
  induction cands with
  | nil => intro st _; rfl
  | cons i rest ih =>
    intro st hall
    rw [List.foldl_cons]
    dsimp only
    rw [if_neg (not_lt.mpr (hall i (List.mem_cons_self i rest)))]
    exact ih st (fun j hj => hall j (List.mem_cons_of_mem _ hj))

theorem bestSubstringIndex_pos (u tc : Str) (hu : u ≠ []) :
    1 ≤ bestSubstringIndex u tc := by
  unfold bestSubstringIndex
  by_cases htc : tc = []
  · subst htc
    exact List.length_pos.mpr hu
  · exact bestFold_ge_one u tc htc _ (u.length, 1/2)
      (List.length_pos.mpr hu) (le_refl _)

theorem bestSubstringIndex_all_le (u tc : Str)
    (hall : ∀ i, i ≤ u.length → ratioL (u.take i) tc ≤ 1/2) :
    bestSubstringIndex u tc = u.length := by
  unfold bestSubstringIndex
  rw [bestFold_noupdate]
  intro i hi
  have := List.mem_takeWhile_imp hi
  exact hall i (by simpa using this)

theorem chunkAux_isSome (probe : Str → Str) :
    ∀ (fuel : Nat) (u : Str), u.length < fuel →
      (chunkAux probe fuel u).isSome = true := by
  intro fuel
  induction fuel with
  | zero => intro u h; exact absurd h (Nat.not_lt_zero _)
  | succ fuel ih =>
    intro u h
    unfold chunkAux
    by_cases hs : (pyStrip u).length = 0
    · rw [if_pos hs]
      rfl
    · rw [if_neg hs]
      dsimp only
      have hu : u ≠ [] := by
        intro hnil
        subst hnil
        exact hs rfl
      have hbi := bestSubstringIndex_pos u (probe u) hu
      rw [Option.isSome_map']
      apply ih
      rw [List.length_drop]
      have hlen : 1 ≤ u.length := List.length_pos.mpr hu
      omega

theorem ratioL_of_matches_zero (a b : Str) (h : matchesTotal a b = 0)
    (hab : a.length + b.length ≠ 0) : ratioL a b = 0 := by
  unfold ratioL
  rw [if_neg hab, h]
  norm_num

/-- C7: the heuristic chunker terminates on every input and probe
(`q.length + 1` fuel always completes); a probe returning the empty string
consumes the whole remaining input as one chunk; and whenever no prefix of
the input scores strictly above `0.5` against the translated chunk, the
whole remaining input is likewise consumed as a single chunk. -/
theorem chunk_terminates :
    (∀ (q : Str) (chunk_translation : Str → Str),
        (chunk q chunk_translation).isSome = true)
    ∧ (∀ q : Str, chunk q (fun _ => [])
        = some (if (pyStrip q).length = 0 then [] else [q]))
    ∧ (∀ (q : Str) (chunk_translation : Str → Str),
        (pyStrip q).length ≠ 0 →
        (∀ i, i ≤ q.length →
          ratioL (q.take i) (chunk_translation q) ≤ 1/2) →
        chunk q chunk_translation = some [q]) := by
  have hnil : ∀ (probe : Str → Str) (fuel : Nat),
      chunkAux probe fuel [] = some [] := by
    intro probe fuel
    cases fuel with
    | zero => rfl
    | succ m =>
      unfold chunkAux
      rfl
  have hone : ∀ (q : Str) (probe : Str → Str), (pyStrip q).length ≠ 0 →
      bestSubstringIndex q (probe q) = q.length →
      chunk q probe = some [q] := by
    intro q probe hs hbi
    unfold chunk chunkAux
    rw [if_neg hs]
    dsimp only
    rw [hbi, List.take_length, List.drop_length, hnil]
    rfl
  refine ⟨?_, ?_, ?_⟩
  · intro q probe
    exact chunkAux_isSome probe (q.length + 1) q (Nat.lt_succ_self _)
  · intro q
    by_cases hs : (pyStrip q).length = 0
    · rw [if_pos hs]
      unfold chunk chunkAux
      rw [if_pos hs]
    · rw [if_neg hs]
      apply hone q _ hs
      unfold bestSubstringIndex
      rfl
  · intro q probe hs hall
    exact hone q probe hs (bestSubstringIndex_all_le q _ hall)

/-- Witness for C7: a two-character input with a probe whose output
shares no characters, so every prefix scores `0 ≤ 0.5`. -/
theorem chunk_terminates_witness :
    chunk "ab".toList (fun _ => "xy".toList) = some ["ab".toList] :=
  chunk_terminates.2.2 "ab".toList (fun _ => "xy".toList) (by decide)
    (by
      intro i hi
      have hi2 : i ≤ 2 := by simpa using hi
      interval_cases i <;>
        (rw [ratioL_of_matches_zero _ _ (by decide) (by decide)] ; norm_num))

end ArgosTranslate
